import Mathlib

/-!
Verification of the CRDT core (struct store, delete set, transaction cleanup)
against its natural-language specification.

The JavaScript sources are shallowly embedded:
* `src/utils/DeleteSet.js` — `DeleteItem`, `sortAndMergeDeleteSet`, `readDeleteSet`
* `src/utils/StructStore.js` — `StructStore`, `getState`, `addStruct`,
  `findIndexSS`, `getItemCleanStart`, `getItemCleanEnd`
* `src/utils/Transaction.js` — `tryToMergeWithLeft`, the observer-dispatch
  phase of `transact`

Mutable JS arrays become lists, in-place mutation becomes explicit rebuilding,
`Map` objects become association lists, and functions that can `throw` return
`Option` (with `none` for the thrown case).
-/

/-- A `(client, clock)` identifier (`ID.js`). -/
structure ID where
  client : Nat
  clock : Nat
deriving DecidableEq, Repr

/-- An entry of a delete set: the half-open range `[clock, clock+len)`
(`DeleteSet.js`, class `DeleteItem`). -/
structure DeleteItem where
  clock : Nat
  len : Nat
deriving DecidableEq, Repr

/-- `DeleteSet.clients : Map<number, Array<DeleteItem>>` as an association list. -/
abbrev DeleteSetL := List (Nat × List DeleteItem)

/-- The order imposed by the comparator `(a, b) => a.clock - b.clock`. -/
def delLE (a b : DeleteItem) : Prop := a.clock ≤ b.clock

instance : DecidableRel delLE := fun a b => inferInstanceAs (Decidable (a.clock ≤ b.clock))

instance : IsTotal DeleteItem delLE := ⟨fun a b => Nat.le_total a.clock b.clock⟩

instance : IsTrans DeleteItem delLE := ⟨fun _ _ _ h h2 => Nat.le_trans h h2⟩

/-- `dels.sort((a, b) => a.clock - b.clock)`.  JS `Array.prototype.sort` is a
stable sort, and insertion sort is stable, so the two agree. -/
def sortDels (dels : List DeleteItem) : List DeleteItem := List.insertionSort delLE dels

/-- The merge loop of `sortAndMergeDeleteSet` (`DeleteSet.js` lines 128-141).
`cur` plays the role of `dels[j-1]`, the last element kept so far: a following
item starting exactly at `cur.clock + cur.len` is folded into `cur`
(`left.len += right.len`), any other item is emitted and becomes the new
`cur`. -/
def mergeDelsAux (cur : DeleteItem) : List DeleteItem → List DeleteItem
  | [] => [cur]
  | right :: rest =>
    if cur.clock + cur.len = right.clock then
      mergeDelsAux ⟨cur.clock, cur.len + right.len⟩ rest
    else
      cur :: mergeDelsAux right rest

/-- The in-place merge of one client's sorted array of delete items. -/
def mergeDels : List DeleteItem → List DeleteItem
  | [] => []
  | a :: rest => mergeDelsAux a rest

/-- `sortAndMergeDeleteSet` restricted to a single client's array:
sort by clock, then coalesce adjacent items. -/
def sortAndMergeDels (dels : List DeleteItem) : List DeleteItem := mergeDels (sortDels dels)

/-- `sortAndMergeDeleteSet` (`DeleteSet.js` lines 121-143): each client's
array is sorted and merged independently. -/
def sortAndMergeDeleteSet (ds : DeleteSetL) : DeleteSetL :=
  ds.map (fun p => (p.1, sortAndMergeDels p.2))

/-- Two delete items with disjoint half-open ranges. -/
def DelDisjoint (a b : DeleteItem) : Prop :=
  a.clock + a.len ≤ b.clock ∨ b.clock + b.len ≤ a.clock

/-- The post-`sortAndMerge` shape claimed by the spec: strictly increasing,
with a genuine gap between consecutive ranges. -/
def StrictGap (l r : DeleteItem) : Prop := l.clock + l.len < r.clock

/-- The fields of `AbstractItem` used by the core algorithms
(id, linked-list and origin pointers, parent type and map key, deleted flag,
string content as in `ItemString`). -/
structure Item where
  id : ID
  origin : Option ID
  rightOrigin : Option ID
  left : Option ID
  right : Option ID
  parent : Nat
  parentSub : Option String
  deleted : Bool
  content : List Char
deriving DecidableEq, Repr

/-- A struct of the store: a `GC` placeholder or a content-carrying item
(the `ItemString` variant of `AbstractItem`). -/
inductive YStruct where
  | gc (id : ID) (len : Nat)
  | item (it : Item)
deriving DecidableEq, Repr

def YStruct.id : YStruct → ID
  | .gc i _ => i
  | .item it => it.id

/-- `struct.length`: a GC stores its length, an `ItemString` has the length
of its string. -/
def YStruct.length : YStruct → Nat
  | .gc _ n => n
  | .item it => it.content.length

/-- `struct.id.clock`, the first clock unit of the struct. -/
def YStruct.start (s : YStruct) : Nat := s.id.clock

/-- `struct.id.clock + struct.length`, one past the last clock unit. -/
def YStruct.stop (s : YStruct) : Nat := s.start + s.length

/-- `struct.deleted`: GC structs count as deleted. -/
def YStruct.deleted : YStruct → Bool
  | .gc _ _ => true
  | .item it => it.deleted

/-- `struct.constructor === GC`. -/
def YStruct.isGC : YStruct → Bool
  | .gc _ _ => true
  | .item _ => false

/-- The per-client contiguity invariant: the array is a gapless run of
half-open intervals beginning at clock `c`. -/
def contigFrom : Nat → List YStruct → Prop
  | _, [] => True
  | c, s :: rest => s.start = c ∧ contigFrom s.stop rest

instance instDecidableContigFrom : (c : Nat) → (l : List YStruct) → Decidable (contigFrom c l)
  | _, [] => .isTrue trivial
  | c, s :: rest =>
    haveI := instDecidableContigFrom s.stop rest
    decidable_of_iff (s.start = c ∧ contigFrom s.stop rest) Iff.rfl

/-- The clock one past the final struct of the array (`c` for an empty
array); for a nonempty array this is `last.id.clock + last.length`. -/
def stopFrom (c : Nat) : List YStruct → Nat
  | [] => c
  | s :: rest => stopFrom s.stop rest

/-- The binary search of `findIndexSS` (`StructStore.js` lines 127-146).
`hi` is the exclusive upper bound of the search window, i.e. `right + 1` for
the JS inclusive `right` (so the JS exit state `right = -1, left = 0` is
`hi = 0`), and `midindex = floor((left + right) / 2) = (left + hi - 1) / 2`.
The fuel argument only bounds the number of iterations: the window shrinks at
every step, so `structs.length + 1` iterations always suffice (established by
`findIndexSSAux_found` below), and the `none` on fuel exhaustion is
unreachable from `findIndexSS`.  `none` models the thrown
`error.unexpectedCase()`. -/
def midIdx (left hi : Nat) : Nat := (left + hi - 1) / 2

def findIndexSSAux (structs : List YStruct) (clock : Nat) : Nat → Nat → Nat → Option Nat
  | 0, _, _ => none
  | fuel + 1, left, hi =>
    if left < hi then
      match structs.get? (midIdx left hi) with
      | none => none
      | some mid =>
        if mid.start ≤ clock then
          if clock < mid.stop then some (midIdx left hi)
          else findIndexSSAux structs clock fuel (midIdx left hi + 1) hi
        else findIndexSSAux structs clock fuel left (midIdx left hi)
    else none

/-- `findIndexSS(structs, clock)`: binary search over the whole array. -/
def findIndexSS (structs : List YStruct) (clock : Nat) : Option Nat :=
  findIndexSSAux structs clock (structs.length + 1) 0 structs.length

/-- `StructStore.clients : Map<number, Array<AbstractStruct>>` as an
association list.  The pending queues of the JS store are not represented:
where an operation feeds them (`readDeleteSet`), the parked data is returned
explicitly instead. -/
structure StructStore where
  clients : List (Nat × List YStruct)
deriving DecidableEq, Repr

/-- `store.clients.get(client)`. -/
def storeGet (store : StructStore) (client : Nat) : Option (List YStruct) :=
  (store.clients.find? (fun p => p.1 == client)).map (fun p => p.2)

def storeSetList : List (Nat × List YStruct) → Nat → List YStruct → List (Nat × List YStruct)
  | [], client, structs => [(client, structs)]
  | p :: rest, client, structs =>
    if p.1 = client then (client, structs) :: rest
    else p :: storeSetList rest client structs

/-- `store.clients.set(client, structs)`. -/
def storeSet (store : StructStore) (client : Nat) (structs : List YStruct) : StructStore :=
  ⟨storeSetList store.clients client structs⟩

/-- `getState(store, client)` (`StructStore.js` lines 70-77): the next
expected clock, `0` for a client with no entry.  For an existing entry the
JS code reads `last.id.clock + last.length`, which `stopFrom 0` computes for
every nonempty array (entries are created nonempty by `addStruct` and only
grow, so the empty case never occurs). -/
def getState (store : StructStore) (client : Nat) : Nat :=
  match storeGet store client with
  | none => 0
  | some structs => stopFrom 0 structs

/-- `addStruct(store, struct)` (`StructStore.js` lines 104-116).  A missing
client entry is created and the struct pushed without any clock check; for
an existing entry the struct must start exactly at
`last.id.clock + last.length`, otherwise the function throws (`none`).
(On an existing-but-empty entry the JS code would read a property of
`undefined` and throw before pushing, hence `none`; such entries never
occur.) -/
def addStruct (store : StructStore) (s : YStruct) : Option StructStore :=
  match storeGet store s.id.client with
  | none => some (storeSet store s.id.client [s])
  | some structs =>
    match structs.getLast? with
    | none => none
    | some last =>
      if last.stop = s.start then
        some (storeSet store s.id.client (structs ++ [s]))
      else none

/-- Modelled from the spec: `splitItem(transaction, item, diff)` is not part
of the given sources (only `ItemString.splitAt`, which delegates to it and
slices the string, is).  Per the spec, splitting at offset `diff` keeps the
left half at the original ID, gives the right half ID `(client, clock+diff)`
and the remaining length, copies parent, parentSub and the deleted flag,
links `left.right = right` and `right.left = left`, sets the right half's
origin to the last ID of the left half, and slices the content.  For a GC
the split is purely arithmetic. -/
def splitStruct : YStruct → Nat → YStruct × YStruct
  | .gc i len, diff =>
    (.gc i diff, .gc ⟨i.client, i.clock + diff⟩ (len - diff))
  | .item it, diff =>
    (.item { it with
        content := it.content.take diff,
        right := some ⟨it.id.client, it.id.clock + diff⟩ },
      .item { it with
        id := ⟨it.id.client, it.id.clock + diff⟩,
        origin := some ⟨it.id.client, it.id.clock + diff - 1⟩,
        left := some it.id,
        content := it.content.drop diff })

/-- `getItemCleanStart(transaction, store, id)` (`StructStore.js` lines
204-220): locate the containing struct; if it begins strictly before
`id.clock` and is not a GC, split it, insert the right half at the next
array position and return the right half; otherwise return the struct
unchanged.  `none` models the throw of `findIndexSS` (and the JS crash on a
missing client entry). -/
def getItemCleanStart (store : StructStore) (id : ID) : Option (YStruct × StructStore) :=
  match storeGet store id.client with
  | none => none
  | some structs =>
    match findIndexSS structs id.clock with
    | none => none
    | some index =>
      match structs.get? index with
      | none => none
      | some struct =>
        if struct.start < id.clock ∧ struct.isGC = false then
          some ((splitStruct struct (id.clock - struct.start)).2,
            storeSet store id.client
              ((structs.set index (splitStruct struct (id.clock - struct.start)).1).insertIdx
                (index + 1) (splitStruct struct (id.clock - struct.start)).2))
        else
          some (struct, store)

/-- `getItemCleanEnd(transaction, store, id)` (`StructStore.js` lines
233-245): locate the containing struct; if `id.clock` is not its last unit
and it is not a GC, split it just after `id.clock`, insert the right half at
the next array position and return the (mutated) left half; otherwise
return the struct unchanged. -/
def getItemCleanEnd (store : StructStore) (id : ID) : Option (YStruct × StructStore) :=
  match storeGet store id.client with
  | none => none
  | some structs =>
    match findIndexSS structs id.clock with
    | none => none
    | some index =>
      match structs.get? index with
      | none => none
      | some struct =>
        if id.clock ≠ struct.start + struct.length - 1 ∧ struct.isGC = false then
          some ((splitStruct struct (id.clock - struct.start + 1)).1,
            storeSet store id.client
              ((structs.set index (splitStruct struct (id.clock - struct.start + 1)).1).insertIdx
                (index + 1) (splitStruct struct (id.clock - struct.start + 1)).2))
        else
          some (struct, store)

/-- `left.constructor === right.constructor` for the two modelled variants. -/
def sameVariant : YStruct → YStruct → Bool
  | .gc _ _, .gc _ _ => true
  | .item _, .item _ => true
  | _, _ => false

/-- The map key of an item (`null` for a GC, which is not an
`AbstractItem`). -/
def YStruct.parentSub : YStruct → Option String
  | .gc _ _ => none
  | .item it => it.parentSub

/-- The parent type of an item (unused for a GC). -/
def YStruct.parentOf : YStruct → Nat
  | .gc _ _ => 0
  | .item it => it.parent

/-- Modelled from the spec: `GC.mergeWith` and `mergeItemWith` are not part
of the given sources (`ItemString.mergeWith` delegates to `mergeItemWith`
and concatenates the strings).  Per the spec, a GC merges with a contiguous
GC of the same client; an item merges with `right` iff same client,
`this.clock + this.length == right.clock`, same deleted flag, same parent
and parentSub, `right.origin == this.lastId` and `right.left == this`; on
success the content is concatenated and `right.right`/`right.rightOrigin`
are adopted.  The merged struct keeps the left struct's ID. -/
def mergeWith : YStruct → YStruct → Option YStruct
  | .gc i len, .gc i2 len2 =>
    if i.client = i2.client ∧ i.clock + len = i2.clock then
      some (.gc i (len + len2))
    else none
  | .item a, .item b =>
    if a.id.client = b.id.client ∧ a.id.clock + a.content.length = b.id.clock ∧
        a.deleted = b.deleted ∧ a.parent = b.parent ∧ a.parentSub = b.parentSub ∧
        b.origin = some ⟨a.id.client, a.id.clock + a.content.length - 1⟩ ∧
        b.left = some a.id then
      some (.item { a with
        content := a.content ++ b.content,
        right := b.right,
        rightOrigin := b.rightOrigin })
    else none
  | _, _ => none

/-- The `_map` entries of all parent types, as `(parent, key) → id` of the
item currently held at that key.  JS object identity between structs of the
store is represented by the struct's ID, which is unique in the store. -/
abbrev ParentMaps := List ((Nat × String) × ID)

def pmapGet (m : ParentMaps) (parent : Nat) (key : String) : Option ID :=
  (m.find? (fun e => e.1.1 == parent && e.1.2 == key)).map (fun e => e.2)

def pmapSet : ParentMaps → Nat → String → ID → ParentMaps
  | [], parent, key, i => [((parent, key), i)]
  | e :: rest, parent, key, i =>
    if e.1.1 = parent ∧ e.1.2 = key then ((parent, key), i) :: rest
    else e :: pmapSet rest parent key i

/-- `tryToMergeWithLeft(structs, pos)` (`Transaction.js` lines 176-188):
if `structs[pos-1]` and `structs[pos]` have equal deleted flags and the same
constructor and `left.mergeWith(right)` succeeds, splice out the right
struct; and if the spliced-out right struct was its parent map's current
entry for `parentSub`, point that entry at the surviving left struct. -/
def tryToMergeWithLeft (structs : List YStruct) (pos : Nat) (maps : ParentMaps) :
    List YStruct × ParentMaps :=
  match structs.get? (pos - 1), structs.get? pos with
  | some left, some right =>
    if left.deleted = right.deleted ∧ sameVariant left right = true then
      match mergeWith left right with
      | some merged =>
        ((structs.set (pos - 1) merged).eraseIdx pos,
          match right.parentSub with
          | some key =>
            if pmapGet maps right.parentOf key = some right.id then
              pmapSet maps right.parentOf key left.id
            else maps
          | none => maps)
      | none => (structs, maps)
    else (structs, maps)
  | _, _ => (structs, maps)

/-- An observer callback, abstracted to its effect on the document's
transaction slot: `true` if the callback itself calls `transact` (the code
comment in `transact` anticipates this: "Observer call may create new
transactions"), `false` if it does not. -/
abbrev Obs := Bool

/-- A queued transaction, reduced to the sequence of observer callbacks its
cleanup iteration invokes: the `_callObserver` calls for
`transaction.changed` followed by the deep handlers for
`transaction.changedParentTypes` (`Transaction.js` lines 155-170). -/
abbrev TxnObs := List Obs

/-- The observer phase of one cleanup iteration.  `active` is
`doc._transaction ≠ null`.  Each observer call is recorded together with
the transaction state it observes at the moment it is invoked.  An
observer that calls `transact` while `doc._transaction === null` creates a
fresh transaction, appends it to `doc._transactionCleanups` and — because
that nested transaction is not the head of the cleanup queue — leaves
`doc._transaction` set when it returns (`Transaction.js` lines 133-137 and
142); calling `transact` while a transaction is active just runs inside it
and changes nothing.  Returns the recorded per-call states, the final
state, and the number of transactions spawned. -/
def runTxnObs : TxnObs → Bool → List Bool × Bool × Nat
  | [], active => ([], active, 0)
  | o :: os, active =>
    ((active :: (runTxnObs os (active || o)).1,
      (runTxnObs os (active || o)).2.1,
      (if o && !active then 1 else 0) + (runTxnObs os (active || o)).2.2))

/-- The observer phase of the whole cleanup loop of `transact`
(`Transaction.js` lines 146-279): queued transactions are processed in FIFO
order and `doc._transaction` is set to `null` (line 152) at the start of
every iteration, before that transaction's observers run.  Transactions
spawned by observers are appended to the queue and processed by later
iterations; in this model they carry no observer callbacks of their own, so
their iterations record no events and the recorded events are the
concatenation of the per-transaction runs, each started with
`doc._transaction = null`. -/
def cleanupEvents (q : List TxnObs) : List Bool :=
  q.flatMap (fun t => (runTxnObs t false).1)

/-- `struct.delete(transaction)` as it affects the struct itself: the
deleted flag is set.  (The transaction bookkeeping — adding the range to
`transaction.deleteSet`, recording the parent in `transaction.changed` and
the ancestor walk — is not modelled here.)  A GC is already deleted and is
never passed to `delete`. -/
def markDeleted : YStruct → YStruct
  | .gc i len => .gc i len
  | .item it => .item { it with deleted := true }

/-- The `while` loop of `readDeleteSet` (`DeleteSet.js` lines 247-260) for
one range ending at `endCl = clock + len`, run on the structs from the
loop's current index on.  A struct beginning at or after `endCl` ends the
loop (the `break`).  A deleted struct is skipped (GC structs count as
deleted, which is why the code can "ignore the case of GC and Delete
structs").  A live struct reaching past `endCl` is split there and its left
part deleted; the loop's next iteration then inspects the inserted right
half, which begins exactly at `endCl`, and breaks without modifying it —
that final no-op iteration is unfolded into the split case here.  Any other
live struct is deleted whole. -/
def delLoop (endCl : Nat) : List YStruct → List YStruct
  | [] => []
  | s :: rest =>
    if s.start < endCl then
      if s.deleted then s :: delLoop endCl rest
      else if endCl < s.stop then
        markDeleted (splitStruct s (endCl - s.start)).1 ::
          (splitStruct s (endCl - s.start)).2 :: rest
      else markDeleted s :: delLoop endCl rest
    else s :: rest

/-- One `(clock, len)` range of `readDeleteSet` applied to its client's
structs (`DeleteSet.js` lines 235-260), in the case `clock < state`: locate
the struct containing `clock` (`none` models the throw of `findIndexSS`),
split it at `clock` if it is live and begins earlier (the split-off left
part stays untouched), then run the delete loop from there. -/
def applyRange (clock len : Nat) (structs : List YStruct) : Option (List YStruct) :=
  match findIndexSS structs clock with
  | none => none
  | some index =>
    match structs.drop index with
    | [] => none
    | s :: rest =>
      if s.deleted = false ∧ s.start < clock then
        some (structs.take index ++ (splitStruct s (clock - s.start)).1 ::
          delLoop (clock + len) ((splitStruct s (clock - s.start)).2 :: rest))
      else
        some (structs.take index ++ delLoop (clock + len) (s :: rest))

/-- One decoded `(clock, len)` entry of `readDeleteSet` (`DeleteSet.js`
lines 228-263) against the client `state` read at line 227: a range
beginning below the state is applied to the structs and its still-unknown
suffix `[state, clock+len)`, if any, is recorded (the collected records are
re-encoded into `store.pendingDeleteReaders` at lines 266-270); a range
beginning at or beyond the state is recorded whole and the structs are
untouched. -/
def readOneRange (state : Nat) (structs : List YStruct) (d : DeleteItem) :
    Option (List YStruct × List DeleteItem) :=
  if d.clock < state then
    match applyRange d.clock d.len structs with
    | none => none
    | some structs2 =>
      some (structs2,
        if state < d.clock + d.len then [⟨state, d.clock + d.len - state⟩] else [])
  else
    some (structs, [d])

/-- One client's portion of `readDeleteSet`: its decoded ranges processed in
order against the fixed `state`, collecting the unapplied ranges. -/
def applyRanges (state : Nat) : List DeleteItem → List YStruct →
    Option (List YStruct × List DeleteItem)
  | [], structs => some (structs, [])
  | d :: rest, structs =>
    match readOneRange state structs d with
    | none => none
    | some (structs2, parked) =>
      match applyRanges state rest structs2 with
      | none => none
      | some (structs3, parked2) => some (structs3, parked ++ parked2)

/-- The unapplied ranges collected by one client's portion of
`readDeleteSet` depend only on the decoded ranges and the state, not on the
structs. -/
def parkedOf (state : Nat) : List DeleteItem → List DeleteItem
  | [] => []
  | d :: rest =>
    (if d.clock < state then
      (if state < d.clock + d.len then [⟨state, d.clock + d.len - state⟩] else [])
    else [d]) ++ parkedOf state rest

/-- A decoded update message restricted to one client: the struct section as
a contiguous block of structs beginning at `startClock`, and the delete-set
section as a list of ranges. -/
structure ClientUpdate where
  startClock : Nat
  block : List YStruct
  ranges : List DeleteItem
deriving DecidableEq, Repr

/-- Modelled from the spec: the trimming step of struct integration
(`changeItemRefOffset` / the `offset` argument of `toStruct`), which is not
part of the given sources.  Structs of the incoming block wholly below the
local state are skipped; a struct straddling the state is trimmed so that it
starts at the state; the rest is kept. -/
def trimBlock (state : Nat) : List YStruct → List YStruct
  | [] => []
  | s :: rest =>
    if s.stop ≤ state then trimBlock state rest
    else if s.start < state then (splitStruct s (state - s.start)).2 :: rest
    else s :: rest

/-- Modelled from the spec: the integration engine
(`tryResumePendingStructRefs`) is not part of the given sources.  Per the
spec, a client's decoded struct block is integrated iff its first clock is
at most the client's current state — otherwise all its refs are parked in
`pendingClientsStructRefs` and the array is untouched; integrated structs
are appended in clock order after trimming (the YATA placement orders the
linked list, not the per-client array, which is sorted by clock). -/
def integrateBlock (state startClock : Nat) (block structs : List YStruct) :
    List YStruct :=
  if startClock ≤ state then structs ++ trimBlock state block else structs

/-- One client's part of applying a full update message: integrate the
struct block, then apply the delete ranges — `readDeleteSet` runs after
struct integration, so the state it reads (line 227) is the
post-integration state.  The parked ranges are dropped from the result: the
struct arrays are the observable store state. -/
def applyClientUpdate (u : ClientUpdate) (structs : List YStruct) :
    Option (List YStruct) :=
  match applyRanges
      (stopFrom 0 (integrateBlock (stopFrom 0 structs) u.startClock u.block structs))
      u.ranges
      (integrateBlock (stopFrom 0 structs) u.startClock u.block structs) with
  | none => none
  | some (structs2, _) => some structs2

/-- An update message: per-client sections. -/
abbrev UpdateMsg := List (Nat × ClientUpdate)

/-- Apply a full update message to a store, one client section after the
other.  `readDeleteSet` reads `store.clients.get(client) || []` (line 226)
and mutates that array in place; here the section's result is written back,
so a client named in the update gets an entry even if everything was parked
— an empty entry behaves exactly like a missing one (state 0, no structs).
-/
def applyUpdate : UpdateMsg → StructStore → Option StructStore
  | [], store => some store
  | (client, cu) :: rest, store =>
    match applyClientUpdate cu ((storeGet store client).getD []) with
    | none => none
    | some structs2 => applyUpdate rest (storeSet store client structs2)

/-- The deleted flag of the struct covering clock unit `u`, `none` if no
struct covers it. -/
def unitDeleted : List YStruct → Nat → Option Bool
  | [], _ => none
  | s :: rest, u =>
    if s.start ≤ u ∧ u < s.stop then some s.deleted else unitDeleted rest u

/-- The invariant carried through a client's delete-range application: a
contiguous array from clock 0 whose state is `state` and whose structs have
positive length. -/
def WFStructs (state : Nat) (l : List YStruct) : Prop :=
  contigFrom 0 l ∧ stopFrom 0 l = state ∧ ∀ x ∈ l, 0 < x.length

/-- A range that has been applied to an array: all of its units are
deleted (or unknown), and no live struct straddles its start. -/
def RangeDone (d : DeleteItem) (l : List YStruct) : Prop :=
  (∀ u, d.clock ≤ u → u < d.clock + d.len → unitDeleted l u ≠ some false) ∧
  (∀ x ∈ l, x.deleted = false → ¬(x.start < d.clock ∧ d.clock < x.stop))

/-- The store invariant: every client's array is contiguous from clock 0
with positive-length structs. -/
def storeWF (store : StructStore) : Prop :=
  ∀ p ∈ store.clients, contigFrom 0 p.2 ∧ ∀ x ∈ p.2, 0 < x.length

/-- A well-formed update message: distinct client sections, each with a
contiguous, positive-length struct block. -/
def updateWF (u : UpdateMsg) : Prop :=
  (u.map Prod.fst).Nodup ∧
  ∀ p ∈ u, contigFrom p.2.startClock p.2.block ∧ ∀ x ∈ p.2.block, 0 < x.length

theorem delDisjoint_symm : Symmetric DelDisjoint := by
  intro a b h
  cases h with
  | inl h => exact Or.inr h
  | inr h => exact Or.inl h

/-- The head of `mergeDelsAux cur rest` always starts at `cur.clock`. -/
theorem mergeDelsAux_head (rest : List DeleteItem) :
    ∀ cur : DeleteItem, ∃ n t, mergeDelsAux cur rest = ⟨cur.clock, n⟩ :: t := by
  induction rest with
  | nil => intro cur; exact ⟨cur.len, [], rfl⟩
  | cons right rest ih =>
    intro cur
    by_cases h : cur.clock + cur.len = right.clock
    · obtain ⟨n, t, ht⟩ := ih ⟨cur.clock, cur.len + right.len⟩
      exact ⟨n, t, by simp [mergeDelsAux, h, ht]⟩
    · exact ⟨cur.len, mergeDelsAux right rest, by simp [mergeDelsAux, h]⟩

/-- If the input to the merge loop is weakly chained (`l.clock + l.len ≤
r.clock` between consecutive items), the output is strictly chained. -/
theorem mergeDelsAux_chain (rest : List DeleteItem) :
    ∀ cur : DeleteItem,
      List.Chain' (fun l r => l.clock + l.len ≤ r.clock) (cur :: rest) →
      List.Chain' StrictGap (mergeDelsAux cur rest) := by
  induction rest with
  | nil => intro cur _; simp [mergeDelsAux]
  | cons right rest ih =>
    intro cur h
    rw [List.chain'_cons] at h
    obtain ⟨hcr, hrest⟩ := h
    by_cases h : cur.clock + cur.len = right.clock
    · rw [mergeDelsAux, if_pos h]
      apply ih
      rw [List.chain'_cons'] at hrest ⊢
      refine ⟨?_, hrest.2⟩
      intro y hy
      have := hrest.1 y hy
      simp only at this ⊢
      omega
    · rw [mergeDelsAux, if_neg h]
      rw [List.chain'_cons']
      constructor
      · intro y hy
        obtain ⟨n, t, ht⟩ := mergeDelsAux_head rest right
        rw [ht] at hy
        simp only [List.head?_cons, Option.mem_def, Option.some.injEq] at hy
        subst hy
        simp only [StrictGap]
        omega
      · exact ih right hrest

/-- On positive, pairwise-disjoint inputs, one client's `sortAndMerge` result
is strictly chained. -/
theorem sortAndMergeDels_chain (dels : List DeleteItem)
    (hpos : ∀ d ∈ dels, 0 < d.len)
    (hdisj : List.Pairwise DelDisjoint dels) :
    List.Chain' StrictGap (sortAndMergeDels dels) := by
  have hperm : List.Perm dels (sortDels dels) := (List.perm_insertionSort delLE dels).symm
  have hsorted : List.Sorted delLE (sortDels dels) := List.sorted_insertionSort delLE dels
  have hdisj' : List.Pairwise DelDisjoint (sortDels dels) :=
    hdisj.perm hperm (fun hr => delDisjoint_symm hr)
  have hpos' : ∀ d ∈ sortDels dels, 0 < d.len := by
    intro d hd
    exact hpos d (hperm.mem_iff.mpr hd)
  have hweak : List.Pairwise (fun l r => l.clock + l.len ≤ r.clock) (sortDels dels) := by
    refine (hsorted.and hdisj').imp_of_mem ?_
    intro a b ha hb h
    obtain ⟨hle, hd⟩ := h
    cases hd with
    | inl h => exact h
    | inr h =>
      have := hpos' b hb
      simp only [delLE] at hle
      omega
  have hchain : List.Chain' (fun l r => l.clock + l.len ≤ r.clock) (sortDels dels) :=
    hweak.chain'
  cases hsd : sortDels dels with
  | nil => simp [sortAndMergeDels, mergeDels, hsd]
  | cons a rest =>
    rw [sortAndMergeDels, hsd, mergeDels]
    exact mergeDelsAux_chain rest a (hsd ▸ hchain)

/-- C1 (counterexample): on a delete set whose ranges overlap, `sortAndMerge`
neither merges them nor removes the overlap, so the claimed strict chain
fails. Client 0 holds the ranges `[0,2)` and `[1,3)`; `sortAndMerge` keeps
both, and `0 + 2 < 1` is false. -/
theorem sortAndMergeDeleteSet_claim_cex :
    (0, [(⟨0, 2⟩ : DeleteItem), ⟨1, 2⟩]) ∈
        sortAndMergeDeleteSet [(0, [(⟨0, 2⟩ : DeleteItem), ⟨1, 2⟩])] ∧
    ¬ List.Chain' StrictGap [(⟨0, 2⟩ : DeleteItem), ⟨1, 2⟩] := by
  constructor
  · have : sortAndMergeDeleteSet [(0, [(⟨0, 2⟩ : DeleteItem), ⟨1, 2⟩])] =
        [(0, [(⟨0, 2⟩ : DeleteItem), ⟨1, 2⟩])] := by decide
    rw [this]
    exact List.mem_singleton.mpr rfl
  · intro h
    rw [List.chain'_cons] at h
    have : (2 : Nat) < 1 := h.1
    omega

/-- C1 (amended): for every delete set whose per-client ranges have positive
length and are pairwise disjoint — as is the case for the delete set a
transaction accumulates, where each deleted struct contributes its own
range exactly once — after `sortAndMergeDeleteSet` each client's array is
sorted by clock with no overlap and no adjacency: consecutive ranges satisfy
`left.clock + left.len < right.clock`. -/
theorem sortAndMergeDeleteSet_chain (ds : DeleteSetL)
    (hpos : ∀ p ∈ ds, ∀ d ∈ p.2, 0 < d.len)
    (hdisj : ∀ p ∈ ds, List.Pairwise DelDisjoint p.2) :
    ∀ q ∈ sortAndMergeDeleteSet ds, List.Chain' StrictGap q.2 := by
  intro q hq
  rw [sortAndMergeDeleteSet, List.mem_map] at hq
  obtain ⟨p, hp, rfl⟩ := hq
  exact sortAndMergeDels_chain p.2 (hpos p hp) (hdisj p hp)

/-- C1 (witness): a concrete delete set satisfying the hypotheses, with the
strict chain holding on the merged output. -/
theorem sortAndMergeDeleteSet_chain_witness :
    (∀ p ∈ [(0, [(⟨5, 2⟩ : DeleteItem), ⟨0, 2⟩, ⟨2, 3⟩])], ∀ d ∈ p.2, 0 < d.len) ∧
    (∀ p ∈ [(0, [(⟨5, 2⟩ : DeleteItem), ⟨0, 2⟩, ⟨2, 3⟩])], List.Pairwise DelDisjoint p.2) ∧
    ∀ q ∈ sortAndMergeDeleteSet [(0, [(⟨5, 2⟩ : DeleteItem), ⟨0, 2⟩, ⟨2, 3⟩])],
      List.Chain' StrictGap q.2 := by
  refine ⟨by decide, ?_, ?_⟩
  · intro p hp
    rw [List.mem_singleton] at hp
    subst hp
    refine List.Pairwise.cons ?_ (List.Pairwise.cons ?_ (List.pairwise_singleton _ _))
    · intro d hd
      simp only [List.mem_cons, List.mem_singleton] at hd
      rcases hd with rfl | rfl | h
      · exact Or.inr (by simp [DelDisjoint])
      · exact Or.inr (by simp [DelDisjoint])
      · cases h
    · intro d hd
      rw [List.mem_singleton] at hd
      subst hd
      exact Or.inl (by simp [DelDisjoint])
  · apply sortAndMergeDeleteSet_chain
    · decide
    · intro p hp
      rw [List.mem_singleton] at hp
      subst hp
      refine List.Pairwise.cons ?_ (List.Pairwise.cons ?_ (List.pairwise_singleton _ _))
      · intro d hd
        simp only [List.mem_cons, List.mem_singleton] at hd
        rcases hd with rfl | rfl | h
        · exact Or.inr (by simp [DelDisjoint])
        · exact Or.inr (by simp [DelDisjoint])
        · cases h
      · intro d hd
        rw [List.mem_singleton] at hd
        subst hd
        exact Or.inl (by simp [DelDisjoint])

theorem YStruct.start_le_stop (s : YStruct) : s.start ≤ s.stop :=
  Nat.le_add_right _ _

theorem contigFrom_mem_start {c : Nat} {l : List YStruct} (h : contigFrom c l) :
    ∀ x ∈ l, c ≤ x.start := by
  induction l generalizing c with
  | nil => intro x hx; cases hx
  | cons s rest ih =>
    intro x hx
    obtain ⟨hs, hrest⟩ := h
    rcases List.mem_cons.mp hx with rfl | hx
    · omega
    · have := ih hrest x hx
      have := s.start_le_stop
      omega

theorem contigFrom_le_stopFrom {l : List YStruct} : ∀ {c : Nat}, contigFrom c l →
    c ≤ stopFrom c l := by
  induction l with
  | nil => intro c _; exact Nat.le_refl _
  | cons s rest ih =>
    intro c h
    obtain ⟨hs, hrest⟩ := h
    have h2 := ih hrest
    have := s.start_le_stop
    show c ≤ stopFrom s.stop rest
    omega

theorem contigFrom_mem_stop {c : Nat} {l : List YStruct} (h : contigFrom c l) :
    ∀ x ∈ l, x.stop ≤ stopFrom c l := by
  induction l generalizing c with
  | nil => intro x hx; cases hx
  | cons s rest ih =>
    intro x hx
    obtain ⟨hs, hrest⟩ := h
    rcases List.mem_cons.mp hx with rfl | hx
    · exact contigFrom_le_stopFrom hrest
    · exact ih hrest x hx

theorem contigFrom_rest_start {c : Nat} {s : YStruct} {rest : List YStruct}
    (h : contigFrom c (s :: rest)) : ∀ x ∈ rest, s.stop ≤ x.start :=
  fun x hx => contigFrom_mem_start h.2 x hx

/-- Under contiguity, an earlier struct ends no later than a later one
starts. -/
theorem contigFrom_get_le {c : Nat} {l : List YStruct} (h : contigFrom c l) :
    ∀ i j a b, i < j → l.get? i = some a → l.get? j = some b → a.stop ≤ b.start := by
  induction l generalizing c with
  | nil => intro i j a b _ ha; simp at ha
  | cons s rest ih =>
    intro i j a b hij ha hb
    cases i with
    | zero =>
      simp only [List.get?_cons_zero, Option.some.injEq] at ha
      subst ha
      cases j with
      | zero => omega
      | succ j =>
        simp only [List.get?_cons_succ] at hb
        exact contigFrom_rest_start h b (List.get?_mem hb)
    | succ i =>
      cases j with
      | zero => omega
      | succ j =>
        simp only [List.get?_cons_succ] at ha hb
        exact ih h.2 i j a b (Nat.lt_of_succ_lt_succ hij) ha hb

/-- Coverage: every clock in `[c, stopFrom c l)` lies in some struct. -/
theorem contigFrom_coverage {c : Nat} {l : List YStruct} (h : contigFrom c l) :
    ∀ u, c ≤ u → u < stopFrom c l →
      ∃ i x, l.get? i = some x ∧ x.start ≤ u ∧ u < x.stop := by
  induction l generalizing c with
  | nil => intro u h1 h2; simp only [stopFrom] at h2; omega
  | cons s rest ih =>
    intro u h1 h2
    obtain ⟨hs, hrest⟩ := h
    by_cases hu : u < s.stop
    · exact ⟨0, s, rfl, by omega, hu⟩
    · obtain ⟨i, x, hx, hx1, hx2⟩ := ih hrest u (by omega) h2
      exact ⟨i + 1, x, by simpa using hx, hx1, hx2⟩

/-- Under contiguity, the struct containing a clock is unique. -/
theorem contigFrom_unique {c : Nat} {l : List YStruct} (h : contigFrom c l)
    {u i j : Nat} {a b : YStruct}
    (ha : l.get? i = some a) (hb : l.get? j = some b)
    (ha1 : a.start ≤ u) (ha2 : u < a.stop) (hb1 : b.start ≤ u) (hb2 : u < b.stop) :
    i = j := by
  rcases Nat.lt_trichotomy i j with hij | hij | hij
  · have := contigFrom_get_le h i j a b hij ha hb
    omega
  · exact hij
  · have := contigFrom_get_le h j i b a hij hb ha
    omega

/-- Soundness: a returned index is in bounds and its struct contains the
clock. -/
theorem findIndexSSAux_sound (structs : List YStruct) (clock : Nat) :
    ∀ fuel left hi i, findIndexSSAux structs clock fuel left hi = some i →
      ∃ s, structs.get? i = some s ∧ s.start ≤ clock ∧ clock < s.stop := by
  intro fuel
  induction fuel with
  | zero => intro left hi i h; simp [findIndexSSAux] at h
  | succ fuel ih =>
    intro left hi i h
    rw [findIndexSSAux] at h
    by_cases hlh : left < hi
    · rw [if_pos hlh] at h
      rcases hget : structs.get? (midIdx left hi) with _ | mid
      · rw [hget] at h; cases h
      · rw [hget] at h
        dsimp only at h
        by_cases h1 : mid.start ≤ clock
        · rw [if_pos h1] at h
          by_cases h2 : clock < mid.stop
          · rw [if_pos h2] at h
            cases h
            exact ⟨mid, hget, h1, h2⟩
          · rw [if_neg h2] at h
            exact ih _ _ _ h
        · rw [if_neg h1] at h
          exact ih _ _ _ h
    · rw [if_neg hlh] at h; cases h

theorem midIdx_ge {left hi : Nat} (h : left < hi) : left ≤ midIdx left hi := by
  rw [midIdx, Nat.le_div_iff_mul_le (by omega : 0 < 2)]
  omega

theorem midIdx_lt {left hi : Nat} (h : left < hi) : midIdx left hi < hi := by
  rw [midIdx, Nat.div_lt_iff_lt_mul (by omega : 0 < 2)]
  omega

/-- Completeness: if some struct in the window `[left, hi)` contains the
clock, the search finds a containing struct, and `hi - left` iterations of
fuel suffice. -/
theorem findIndexSSAux_found (structs : List YStruct) (clock c0 : Nat)
    (hc : contigFrom c0 structs) :
    ∀ fuel left hi, hi ≤ structs.length → hi - left ≤ fuel →
      ∀ j t, left ≤ j → j < hi → structs.get? j = some t →
        t.start ≤ clock → clock < t.stop →
      ∃ i s, findIndexSSAux structs clock fuel left hi = some i ∧
        structs.get? i = some s ∧ s.start ≤ clock ∧ clock < s.stop := by
  intro fuel
  induction fuel with
  | zero => intro left hi _ hfuel j t hj1 hj2 _ _ _; omega
  | succ fuel ih =>
    intro left hi hhi hfuel j t hj1 hj2 hjt ht1 ht2
    have hlh : left < hi := Nat.lt_of_le_of_lt hj1 hj2
    rw [findIndexSSAux, if_pos hlh]
    have hmid1 := midIdx_ge hlh
    have hmid2 := midIdx_lt hlh
    have hmlen : midIdx left hi < structs.length := Nat.lt_of_lt_of_le hmid2 hhi
    rcases hget : structs.get? (midIdx left hi) with _ | mid
    · rw [List.get?_eq_none] at hget; omega
    · dsimp only
      by_cases h1 : mid.start ≤ clock
      · rw [if_pos h1]
        by_cases h2 : clock < mid.stop
        · rw [if_pos h2]
          exact ⟨_, mid, rfl, hget, h1, h2⟩
        · rw [if_neg h2]
          have hj3 : midIdx left hi < j := by
            rcases Nat.lt_trichotomy j (midIdx left hi) with hlt | heq | hgt
            · have := contigFrom_get_le hc j (midIdx left hi) t mid hlt hjt hget
              omega
            · subst heq
              rw [hget] at hjt
              cases hjt
              omega
            · exact hgt
          exact ih (midIdx left hi + 1) hi hhi (by omega) j t (by omega) hj2 hjt ht1 ht2
      · rw [if_neg h1]
        push_neg at h1
        have hj3 : j < midIdx left hi := by
          rcases Nat.lt_trichotomy (midIdx left hi) j with hlt | heq | hgt
          · have := contigFrom_get_le hc (midIdx left hi) j mid t hlt hget hjt
            have := mid.start_le_stop
            omega
          · rw [← heq] at hjt
            rw [hget] at hjt
            cases hjt
            omega
          · exact hgt
        exact ih left (midIdx left hi) (by omega) (by omega) j t hj1 hj3 hjt ht1 ht2

/-- C5: for every per-client struct array satisfying the contiguity invariant
(a gapless run of intervals starting at some clock `c0`, which for a nonempty
array is its first struct's clock) and every clock inside the known interval,
`findIndexSS` returns the unique index of the struct whose half-open interval
contains the clock; for any clock outside that interval it throws
(returns `none`). -/
theorem findIndexSS_spec (structs : List YStruct) (c0 clock : Nat)
    (hc : contigFrom c0 structs) :
    ((c0 ≤ clock ∧ clock < stopFrom c0 structs) →
      ∃ i s, findIndexSS structs clock = some i ∧ structs.get? i = some s ∧
        s.start ≤ clock ∧ clock < s.stop ∧
        ∀ j t, structs.get? j = some t → t.start ≤ clock → clock < t.stop → j = i) ∧
    ((clock < c0 ∨ stopFrom c0 structs ≤ clock) → findIndexSS structs clock = none) := by
  constructor
  · rintro ⟨h1, h2⟩
    obtain ⟨j, t, hjt, ht1, ht2⟩ := contigFrom_coverage hc clock h1 h2
    have hjlen : j < structs.length := by
      by_contra hge
      push_neg at hge
      rw [← List.get?_eq_none] at hge
      rw [hge] at hjt
      cases hjt
    obtain ⟨i, s, hfind, hgs, hs1, hs2⟩ :=
      findIndexSSAux_found structs clock c0 hc (structs.length + 1) 0 structs.length
        (Nat.le_refl _) (by omega) j t (Nat.zero_le _) hjlen hjt ht1 ht2
    exact ⟨i, s, hfind, hgs, hs1, hs2,
      fun j' t' h' h1' h2' => contigFrom_unique hc h' hgs h1' h2' hs1 hs2⟩
  · intro h
    rcases hfind : findIndexSS structs clock with _ | i
    · rfl
    · exfalso
      obtain ⟨s, hgs, hs1, hs2⟩ := findIndexSSAux_sound structs clock _ _ _ i hfind
      have hmem : s ∈ structs := List.get?_mem hgs
      have h3 := contigFrom_mem_start hc s hmem
      have h4 := contigFrom_mem_stop hc s hmem
      rcases h with h | h <;> omega

/-- C5 (witness): a concrete contiguous two-struct array; clock 3 is found in
the second struct, clock 7 is outside the known interval and throws. -/
theorem findIndexSS_spec_witness :
    (∃ i s, findIndexSS [YStruct.gc ⟨0, 0⟩ 2, YStruct.gc ⟨0, 2⟩ 3] 3 = some i ∧
      [YStruct.gc ⟨0, 0⟩ 2, YStruct.gc ⟨0, 2⟩ 3].get? i = some s ∧
      s.start ≤ 3 ∧ 3 < s.stop ∧
      ∀ j t, [YStruct.gc ⟨0, 0⟩ 2, YStruct.gc ⟨0, 2⟩ 3].get? j = some t →
        t.start ≤ 3 → 3 < t.stop → j = i) ∧
    findIndexSS [YStruct.gc ⟨0, 0⟩ 2, YStruct.gc ⟨0, 2⟩ 3] 7 = none :=
  ⟨(findIndexSS_spec [YStruct.gc ⟨0, 0⟩ 2, YStruct.gc ⟨0, 2⟩ 3] 0 3 (by decide)).1
      ⟨by decide, by decide⟩,
    (findIndexSS_spec [YStruct.gc ⟨0, 0⟩ 2, YStruct.gc ⟨0, 2⟩ 3] 0 7 (by decide)).2
      (Or.inr (by decide))⟩

/-- C10: `getState` of a client with no entry in the store is `0`. -/
theorem getState_missing_client (store : StructStore) (client : Nat)
    (h : storeGet store client = none) : getState store client = 0 := by
  rw [getState, h]

/-- C10 (witness): the empty store knows no client, and client 7 has
state 0. -/
theorem getState_missing_client_witness :
    storeGet ⟨[]⟩ 7 = none ∧ getState ⟨[]⟩ 7 = 0 :=
  ⟨by decide, getState_missing_client ⟨[]⟩ 7 (by decide)⟩

/-- C2 (counterexample): the claim says `addStruct` throws exactly when the
struct's clock differs from the client's next expected clock, which is 0 for
a client with no structs.  But for a client with no entry the code performs
no check at all: adding a struct with clock 5 to an empty store succeeds
even though the next expected clock is 0. -/
theorem addStruct_claim_cex :
    ¬ (addStruct ⟨[]⟩ (YStruct.gc ⟨0, 5⟩ 1) = none ↔
        (YStruct.gc ⟨0, 5⟩ 1).start ≠ getState ⟨[]⟩ (YStruct.gc ⟨0, 5⟩ 1).id.client) := by
  decide

/-- C2 (amended): `addStruct` appends the struct to its client's array and
fails exactly when that client already has structs and the struct's clock
differs from `last.id.clock + last.length`; for a client with no entry the
struct is appended unconditionally, with no check that its clock is 0. -/
theorem addStruct_spec (store : StructStore) (s : YStruct) :
    (storeGet store s.id.client = none →
      addStruct store s = some (storeSet store s.id.client [s])) ∧
    (∀ structs last, storeGet store s.id.client = some structs →
      structs.getLast? = some last →
      (last.stop ≠ s.start → addStruct store s = none) ∧
      (last.stop = s.start →
        addStruct store s = some (storeSet store s.id.client (structs ++ [s])))) := by
  constructor
  · intro h
    rw [addStruct, h]
  · intro structs last hget hlast
    constructor
    · intro hne
      rw [addStruct, hget]
      dsimp only
      rw [hlast]
      dsimp only
      rw [if_neg hne]
    · intro heq
      rw [addStruct, hget]
      dsimp only
      rw [hlast]
      dsimp only
      rw [if_pos heq]

/-- C2 (witness): on a store where client 0 ends at clock 2, appending at
clock 2 succeeds, appending at clock 5 throws, and a fresh client 3 may
start at any clock. -/
theorem addStruct_spec_witness :
    addStruct ⟨[(0, [YStruct.gc ⟨0, 0⟩ 2])]⟩ (YStruct.gc ⟨0, 2⟩ 1) =
      some (storeSet ⟨[(0, [YStruct.gc ⟨0, 0⟩ 2])]⟩ 0
        ([YStruct.gc ⟨0, 0⟩ 2] ++ [YStruct.gc ⟨0, 2⟩ 1])) ∧
    addStruct ⟨[(0, [YStruct.gc ⟨0, 0⟩ 2])]⟩ (YStruct.gc ⟨0, 5⟩ 1) = none ∧
    addStruct ⟨[]⟩ (YStruct.gc ⟨3, 4⟩ 2) = some (storeSet ⟨[]⟩ 3 [YStruct.gc ⟨3, 4⟩ 2]) :=
  ⟨((addStruct_spec ⟨[(0, [YStruct.gc ⟨0, 0⟩ 2])]⟩ (YStruct.gc ⟨0, 2⟩ 1)).2
      [YStruct.gc ⟨0, 0⟩ 2] (YStruct.gc ⟨0, 0⟩ 2) (by decide) (by decide)).2 (by decide),
    ((addStruct_spec ⟨[(0, [YStruct.gc ⟨0, 0⟩ 2])]⟩ (YStruct.gc ⟨0, 5⟩ 1)).2
      [YStruct.gc ⟨0, 0⟩ 2] (YStruct.gc ⟨0, 0⟩ 2) (by decide) (by decide)).1 (by decide),
    (addStruct_spec ⟨[]⟩ (YStruct.gc ⟨3, 4⟩ 2)).1 (by decide)⟩

theorem splitStruct_fst_start (s : YStruct) (d : Nat) :
    (splitStruct s d).1.start = s.start := by
  cases s <;> rfl

theorem splitStruct_snd_start (s : YStruct) (d : Nat) :
    (splitStruct s d).2.start = s.start + d := by
  cases s <;> rfl

theorem splitStruct_fst_length (s : YStruct) (d : Nat) (h : d ≤ s.length) :
    (splitStruct s d).1.length = d := by
  cases s with
  | gc i len => rfl
  | item it =>
    simp only [splitStruct, YStruct.length, List.length_take]
    exact Nat.min_eq_left h

theorem splitStruct_snd_length (s : YStruct) (d : Nat) :
    (splitStruct s d).2.length = s.length - d := by
  cases s with
  | gc i len => rfl
  | item it => simp [splitStruct, YStruct.length]

theorem splitStruct_fst_stop (s : YStruct) (d : Nat) (h : d ≤ s.length) :
    (splitStruct s d).1.stop = s.start + d := by
  rw [YStruct.stop, splitStruct_fst_start, splitStruct_fst_length s d h]

theorem splitStruct_snd_stop (s : YStruct) (d : Nat) (h : d ≤ s.length) :
    (splitStruct s d).2.stop = s.stop := by
  rw [YStruct.stop, splitStruct_snd_start, splitStruct_snd_length, YStruct.stop]
  omega

theorem splitStruct_fst_deleted (s : YStruct) (d : Nat) :
    (splitStruct s d).1.deleted = s.deleted := by
  cases s <;> rfl

theorem splitStruct_snd_deleted (s : YStruct) (d : Nat) :
    (splitStruct s d).2.deleted = s.deleted := by
  cases s <;> rfl

theorem splitStruct_fst_isGC (s : YStruct) (d : Nat) :
    (splitStruct s d).1.isGC = s.isGC := by
  cases s <;> rfl

theorem splitStruct_snd_isGC (s : YStruct) (d : Nat) :
    (splitStruct s d).2.isGC = s.isGC := by
  cases s <;> rfl

/-- C6 (counterexample): on a store whose only struct is a GC covering
`[0,3)`, `getItemCleanEnd` at clock 0 returns the whole GC, which ends at
clock 3, not at `id.clock + 1 = 1`: a GC is never split, contrary to the
unconditional claim. -/
theorem getItemCleanEnd_claim_cex :
    (getItemCleanEnd ⟨[(0, [YStruct.gc ⟨0, 0⟩ 3])]⟩ ⟨0, 0⟩).map (fun p => p.1.stop) =
      some 3 ∧ (3 : Nat) ≠ 0 + 1 := by
  decide

/-- C6 (amended): for an id whose clock is within the known state,
`getItemCleanEnd` returns the struct ending exactly at `id.clock + 1`,
splitting the containing struct (and inserting the right half at the next
array position) when `id.clock` is not already its last unit — unless the
containing struct is a GC, which is returned whole and unsplit. -/
theorem getItemCleanEnd_spec (store : StructStore) (id : ID) (structs : List YStruct)
    (c0 : Nat) (hget : storeGet store id.client = some structs)
    (hc : contigFrom c0 structs)
    (h1 : c0 ≤ id.clock) (h2 : id.clock < stopFrom c0 structs) :
    ∃ index s, findIndexSS structs id.clock = some index ∧
      structs.get? index = some s ∧ s.start ≤ id.clock ∧ id.clock < s.stop ∧
      (s.isGC = true → getItemCleanEnd store id = some (s, store)) ∧
      (s.isGC = false →
        ∃ r store2, getItemCleanEnd store id = some (r, store2) ∧
          r.stop = id.clock + 1 ∧
          (id.clock = s.stop - 1 → r = s ∧ store2 = store) ∧
          (id.clock ≠ s.stop - 1 →
            r = (splitStruct s (id.clock - s.start + 1)).1 ∧
            store2 = storeSet store id.client
              ((structs.set index r).insertIdx (index + 1)
                (splitStruct s (id.clock - s.start + 1)).2))) := by
  obtain ⟨index, s, hfind, hgs, hs1, hs2, huniq⟩ :=
    (findIndexSS_spec structs c0 id.clock hc).1 ⟨h1, h2⟩
  have hstop : s.stop = s.start + s.length := rfl
  refine ⟨index, s, hfind, hgs, hs1, hs2, ?_, ?_⟩
  · intro hgc
    rw [getItemCleanEnd, hget]
    dsimp only
    rw [hfind]
    dsimp only
    rw [hgs]
    dsimp only
    rw [if_neg]
    intro hcond
    rw [hgc] at hcond
    exact absurd hcond.2 (by simp)
  · intro hgc
    by_cases heq : id.clock = s.stop - 1
    · refine ⟨s, store, ?_, by omega, fun _ => ⟨rfl, rfl⟩, fun hne => absurd heq hne⟩
      rw [getItemCleanEnd, hget]
      dsimp only
      rw [hfind]
      dsimp only
      rw [hgs]
      dsimp only
      rw [if_neg]
      intro hcond
      exact hcond.1 (by omega)
    · have hd : id.clock - s.start + 1 ≤ s.length := by omega
      refine ⟨(splitStruct s (id.clock - s.start + 1)).1, _, ?_, ?_,
        fun h => absurd h heq, fun _ => ⟨rfl, rfl⟩⟩
      · rw [getItemCleanEnd, hget]
        dsimp only
        rw [hfind]
        dsimp only
        rw [hgs]
        dsimp only
        rw [if_pos ⟨by omega, hgc⟩]
      · rw [splitStruct_fst_stop s _ hd]
        omega

/-- C6 (witness): splitting a three-character item at clock 1 returns the
left half `[0,2)`. -/
theorem getItemCleanEnd_spec_witness :
    ∃ index s,
      findIndexSS [YStruct.item ⟨⟨0, 0⟩, none, none, none, none, 0, none, false,
        ['a', 'b', 'c']⟩] 1 = some index ∧
      [YStruct.item ⟨⟨0, 0⟩, none, none, none, none, 0, none, false,
        ['a', 'b', 'c']⟩].get? index = some s ∧
      s.start ≤ 1 ∧ 1 < s.stop ∧
      (s.isGC = true →
        getItemCleanEnd ⟨[(0, [YStruct.item ⟨⟨0, 0⟩, none, none, none, none, 0, none, false,
          ['a', 'b', 'c']⟩])]⟩ ⟨0, 1⟩ = some (s, ⟨[(0, [YStruct.item ⟨⟨0, 0⟩, none, none, none,
          none, 0, none, false, ['a', 'b', 'c']⟩])]⟩)) ∧
      (s.isGC = false →
        ∃ r store2,
          getItemCleanEnd ⟨[(0, [YStruct.item ⟨⟨0, 0⟩, none, none, none, none, 0, none, false,
            ['a', 'b', 'c']⟩])]⟩ ⟨0, 1⟩ = some (r, store2) ∧
          r.stop = 1 + 1 ∧
          (1 = s.stop - 1 → r = s ∧ store2 = ⟨[(0, [YStruct.item ⟨⟨0, 0⟩, none, none, none,
            none, 0, none, false, ['a', 'b', 'c']⟩])]⟩) ∧
          (1 ≠ s.stop - 1 →
            r = (splitStruct s (1 - s.start + 1)).1 ∧
            store2 = storeSet ⟨[(0, [YStruct.item ⟨⟨0, 0⟩, none, none, none, none, 0, none,
              false, ['a', 'b', 'c']⟩])]⟩ 0
              (([YStruct.item ⟨⟨0, 0⟩, none, none, none, none, 0, none, false,
                ['a', 'b', 'c']⟩].set index r).insertIdx (index + 1)
                (splitStruct s (1 - s.start + 1)).2))) :=
  getItemCleanEnd_spec ⟨[(0, [YStruct.item ⟨⟨0, 0⟩, none, none, none, none, 0, none, false,
    ['a', 'b', 'c']⟩])]⟩ ⟨0, 1⟩
    [YStruct.item ⟨⟨0, 0⟩, none, none, none, none, 0, none, false, ['a', 'b', 'c']⟩] 0
    (by decide) (by decide) (by decide) (by decide)

/-- C7 (counterexample): on a store whose only struct is a GC covering
`[0,3)`, `getItemCleanStart` at clock 2 returns the whole GC, which begins
at clock 0, not at `id.clock = 2`: a GC is never split, contrary to the
unconditional claim. -/
theorem getItemCleanStart_claim_cex :
    (getItemCleanStart ⟨[(0, [YStruct.gc ⟨0, 0⟩ 3])]⟩ ⟨0, 2⟩).map (fun p => p.1.start) =
      some 0 ∧ (0 : Nat) ≠ 2 := by
  decide

/-- C7 (amended): for an id whose clock is within the known state,
`getItemCleanStart` returns the struct beginning exactly at `id.clock`,
splitting the containing struct (and inserting the right half, which is
returned, at the next array position) when its clock is strictly smaller
than `id.clock` — unless the containing struct is a GC, which is returned
whole and unsplit. -/
theorem getItemCleanStart_spec (store : StructStore) (id : ID) (structs : List YStruct)
    (c0 : Nat) (hget : storeGet store id.client = some structs)
    (hc : contigFrom c0 structs)
    (h1 : c0 ≤ id.clock) (h2 : id.clock < stopFrom c0 structs) :
    ∃ index s, findIndexSS structs id.clock = some index ∧
      structs.get? index = some s ∧ s.start ≤ id.clock ∧ id.clock < s.stop ∧
      (s.isGC = true → getItemCleanStart store id = some (s, store)) ∧
      (s.isGC = false →
        ∃ r store2, getItemCleanStart store id = some (r, store2) ∧
          r.start = id.clock ∧
          (s.start = id.clock → r = s ∧ store2 = store) ∧
          (s.start < id.clock →
            r = (splitStruct s (id.clock - s.start)).2 ∧
            store2 = storeSet store id.client
              ((structs.set index (splitStruct s (id.clock - s.start)).1).insertIdx
                (index + 1) r))) := by
  obtain ⟨index, s, hfind, hgs, hs1, hs2, huniq⟩ :=
    (findIndexSS_spec structs c0 id.clock hc).1 ⟨h1, h2⟩
  refine ⟨index, s, hfind, hgs, hs1, hs2, ?_, ?_⟩
  · intro hgc
    rw [getItemCleanStart, hget]
    dsimp only
    rw [hfind]
    dsimp only
    rw [hgs]
    dsimp only
    rw [if_neg]
    intro hcond
    rw [hgc] at hcond
    exact absurd hcond.2 (by simp)
  · intro hgc
    by_cases heq : s.start = id.clock
    · refine ⟨s, store, ?_, heq, fun _ => ⟨rfl, rfl⟩, fun hlt => by omega⟩
      rw [getItemCleanStart, hget]
      dsimp only
      rw [hfind]
      dsimp only
      rw [hgs]
      dsimp only
      rw [if_neg]
      intro hcond
      omega
    · have hlt : s.start < id.clock := by omega
      refine ⟨(splitStruct s (id.clock - s.start)).2, _, ?_, ?_,
        fun h => absurd h heq, fun _ => ⟨rfl, rfl⟩⟩
      · rw [getItemCleanStart, hget]
        dsimp only
        rw [hfind]
        dsimp only
        rw [hgs]
        dsimp only
        rw [if_pos ⟨hlt, hgc⟩]
      · rw [splitStruct_snd_start]
        omega

/-- C7 (witness): splitting a three-character item at clock 1 returns the
right half, which begins at clock 1. -/
theorem getItemCleanStart_spec_witness :
    ∃ index s,
      findIndexSS [YStruct.item ⟨⟨0, 0⟩, none, none, none, none, 0, none, false,
        ['a', 'b', 'c']⟩] 1 = some index ∧
      [YStruct.item ⟨⟨0, 0⟩, none, none, none, none, 0, none, false,
        ['a', 'b', 'c']⟩].get? index = some s ∧
      s.start ≤ 1 ∧ 1 < s.stop ∧
      (s.isGC = true →
        getItemCleanStart ⟨[(0, [YStruct.item ⟨⟨0, 0⟩, none, none, none, none, 0, none, false,
          ['a', 'b', 'c']⟩])]⟩ ⟨0, 1⟩ = some (s, ⟨[(0, [YStruct.item ⟨⟨0, 0⟩, none, none, none,
          none, 0, none, false, ['a', 'b', 'c']⟩])]⟩)) ∧
      (s.isGC = false →
        ∃ r store2,
          getItemCleanStart ⟨[(0, [YStruct.item ⟨⟨0, 0⟩, none, none, none, none, 0, none, false,
            ['a', 'b', 'c']⟩])]⟩ ⟨0, 1⟩ = some (r, store2) ∧
          r.start = 1 ∧
          (s.start = 1 → r = s ∧ store2 = ⟨[(0, [YStruct.item ⟨⟨0, 0⟩, none, none, none,
            none, 0, none, false, ['a', 'b', 'c']⟩])]⟩) ∧
          (s.start < 1 →
            r = (splitStruct s (1 - s.start)).2 ∧
            store2 = storeSet ⟨[(0, [YStruct.item ⟨⟨0, 0⟩, none, none, none, none, 0, none,
              false, ['a', 'b', 'c']⟩])]⟩ 0
              (([YStruct.item ⟨⟨0, 0⟩, none, none, none, none, 0, none, false,
                ['a', 'b', 'c']⟩].set index (splitStruct s (1 - s.start)).1).insertIdx
                (index + 1) r))) :=
  getItemCleanStart_spec ⟨[(0, [YStruct.item ⟨⟨0, 0⟩, none, none, none, none, 0, none, false,
    ['a', 'b', 'c']⟩])]⟩ ⟨0, 1⟩
    [YStruct.item ⟨⟨0, 0⟩, none, none, none, none, 0, none, false, ['a', 'b', 'c']⟩] 0
    (by decide) (by decide) (by decide) (by decide)

/-- Splicing out position `pos` after overwriting position `pos - 1`. -/
theorem set_eraseIdx_eq (l : List YStruct) (k : Nat) (m : YStruct)
    (h : k + 1 < l.length) :
    (l.set k m).eraseIdx (k + 1) = l.take k ++ m :: l.drop (k + 2) := by
  induction k generalizing l with
  | zero =>
    cases l with
    | nil => simp at h
    | cons a rest =>
      cases rest with
      | nil => simp at h
      | cons b rest' => simp [List.eraseIdx]
  | succ k ih =>
    cases l with
    | nil => simp at h
    | cons a rest =>
      simp only [List.length_cons] at h
      simp only [List.set, List.eraseIdx, List.take, List.drop]
      rw [ih rest (by omega)]
      simp

/-- C9: `tryToMergeWithLeft` merges `structs[pos]` into `structs[pos-1]`
only when both have equal deleted flags, the same concrete variant and
`mergeWith` succeeds; on success the right struct is spliced out (the left
slot now holds the merged struct) and, exactly when the merged-away right
struct was its parent map's current entry for its `parentSub` key, that
entry is repointed at the surviving left struct; on failure the array and
the maps are unchanged. -/
theorem tryToMergeWithLeft_spec (structs : List YStruct) (pos : Nat) (maps : ParentMaps)
    (left right : YStruct) (hpos : 0 < pos) (hlen : pos < structs.length)
    (hl : structs.get? (pos - 1) = some left) (hr : structs.get? pos = some right) :
    ((left.deleted ≠ right.deleted ∨ sameVariant left right = false ∨
        mergeWith left right = none) →
      tryToMergeWithLeft structs pos maps = (structs, maps)) ∧
    (∀ merged, mergeWith left right = some merged →
      left.deleted = right.deleted → sameVariant left right = true →
      (tryToMergeWithLeft structs pos maps).1 =
        structs.take (pos - 1) ++ merged :: structs.drop (pos + 1) ∧
      ((∀ key, right.parentSub = some key →
          (pmapGet maps right.parentOf key = some right.id →
            (tryToMergeWithLeft structs pos maps).2 =
              pmapSet maps right.parentOf key left.id) ∧
          (pmapGet maps right.parentOf key ≠ some right.id →
            (tryToMergeWithLeft structs pos maps).2 = maps)) ∧
        (right.parentSub = none → (tryToMergeWithLeft structs pos maps).2 = maps))) := by
  constructor
  · intro h
    rw [tryToMergeWithLeft, hl, hr]
    dsimp only
    rcases h with h | h | h
    · rw [if_neg]
      intro hc
      exact h hc.1
    · rw [if_neg]
      intro hc
      rw [h] at hc
      exact absurd hc.2 (by simp)
    · by_cases hc : left.deleted = right.deleted ∧ sameVariant left right = true
      · rw [if_pos hc, h]
      · rw [if_neg hc]
  · intro merged hm hdel hvar
    rw [tryToMergeWithLeft, hl, hr]
    dsimp only
    rw [if_pos ⟨hdel, hvar⟩, hm]
    dsimp only
    have hk : pos - 1 + 1 = pos := by omega
    refine ⟨?_, ?_, ?_⟩
    · have hres := set_eraseIdx_eq structs (pos - 1) merged (by omega)
      rw [hk] at hres
      have h2 : pos - 1 + 2 = pos + 1 := by omega
      rw [h2] at hres
      exact hres
    · intro key hkey
      rw [hkey]
      dsimp only
      constructor
      · intro hcur
        rw [if_pos hcur]
      · intro hcur
        rw [if_neg hcur]
    · intro hkey
      rw [hkey]

/-- C9 (witness): two mergeable one-character map items of client 0; the
parent map currently points at the right item and is repointed at the left
one, the right item is spliced out. -/
theorem tryToMergeWithLeft_spec_witness :
    ((YStruct.item ⟨⟨0, 0⟩, none, none, none, some ⟨0, 1⟩, 0, some "k", false,
        ['a']⟩).deleted ≠ (YStruct.item ⟨⟨0, 1⟩, some ⟨0, 0⟩, none, some ⟨0, 0⟩, none, 0,
        some "k", false, ['b']⟩).deleted ∨
      sameVariant (YStruct.item ⟨⟨0, 0⟩, none, none, none, some ⟨0, 1⟩, 0, some "k", false,
        ['a']⟩) (YStruct.item ⟨⟨0, 1⟩, some ⟨0, 0⟩, none, some ⟨0, 0⟩, none, 0, some "k",
        false, ['b']⟩) = false ∨
      mergeWith (YStruct.item ⟨⟨0, 0⟩, none, none, none, some ⟨0, 1⟩, 0, some "k", false,
        ['a']⟩) (YStruct.item ⟨⟨0, 1⟩, some ⟨0, 0⟩, none, some ⟨0, 0⟩, none, 0, some "k",
        false, ['b']⟩) = none →
      tryToMergeWithLeft [YStruct.item ⟨⟨0, 0⟩, none, none, none, some ⟨0, 1⟩, 0, some "k",
          false, ['a']⟩,
        YStruct.item ⟨⟨0, 1⟩, some ⟨0, 0⟩, none, some ⟨0, 0⟩, none, 0, some "k", false,
          ['b']⟩] 1 [((0, "k"), ⟨0, 1⟩)] =
        ([YStruct.item ⟨⟨0, 0⟩, none, none, none, some ⟨0, 1⟩, 0, some "k", false, ['a']⟩,
          YStruct.item ⟨⟨0, 1⟩, some ⟨0, 0⟩, none, some ⟨0, 0⟩, none, 0, some "k", false,
            ['b']⟩], [((0, "k"), ⟨0, 1⟩)])) ∧
    (∀ merged, mergeWith (YStruct.item ⟨⟨0, 0⟩, none, none, none, some ⟨0, 1⟩, 0, some "k",
        false, ['a']⟩) (YStruct.item ⟨⟨0, 1⟩, some ⟨0, 0⟩, none, some ⟨0, 0⟩, none, 0,
        some "k", false, ['b']⟩) = some merged →
      (YStruct.item ⟨⟨0, 0⟩, none, none, none, some ⟨0, 1⟩, 0, some "k", false,
        ['a']⟩).deleted = (YStruct.item ⟨⟨0, 1⟩, some ⟨0, 0⟩, none, some ⟨0, 0⟩, none, 0,
        some "k", false, ['b']⟩).deleted →
      sameVariant (YStruct.item ⟨⟨0, 0⟩, none, none, none, some ⟨0, 1⟩, 0, some "k", false,
        ['a']⟩) (YStruct.item ⟨⟨0, 1⟩, some ⟨0, 0⟩, none, some ⟨0, 0⟩, none, 0, some "k",
        false, ['b']⟩) = true →
      (tryToMergeWithLeft [YStruct.item ⟨⟨0, 0⟩, none, none, none, some ⟨0, 1⟩, 0, some "k",
          false, ['a']⟩,
        YStruct.item ⟨⟨0, 1⟩, some ⟨0, 0⟩, none, some ⟨0, 0⟩, none, 0, some "k", false,
          ['b']⟩] 1 [((0, "k"), ⟨0, 1⟩)]).1 =
        [YStruct.item ⟨⟨0, 0⟩, none, none, none, some ⟨0, 1⟩, 0, some "k", false,
          ['a']⟩].take 0 ++ merged :: [YStruct.item ⟨⟨0, 0⟩, none, none, none, some ⟨0, 1⟩,
          0, some "k", false, ['a']⟩,
          YStruct.item ⟨⟨0, 1⟩, some ⟨0, 0⟩, none, some ⟨0, 0⟩, none, 0, some "k", false,
            ['b']⟩].drop 2 ∧
      ((∀ key, (YStruct.item ⟨⟨0, 1⟩, some ⟨0, 0⟩, none, some ⟨0, 0⟩, none, 0, some "k",
          false, ['b']⟩).parentSub = some key →
          (pmapGet [((0, "k"), ⟨0, 1⟩)] (YStruct.item ⟨⟨0, 1⟩, some ⟨0, 0⟩, none, some ⟨0, 0⟩,
              none, 0, some "k", false, ['b']⟩).parentOf key = some ⟨0, 1⟩ →
            (tryToMergeWithLeft [YStruct.item ⟨⟨0, 0⟩, none, none, none, some ⟨0, 1⟩, 0,
                some "k", false, ['a']⟩,
              YStruct.item ⟨⟨0, 1⟩, some ⟨0, 0⟩, none, some ⟨0, 0⟩, none, 0, some "k", false,
                ['b']⟩] 1 [((0, "k"), ⟨0, 1⟩)]).2 =
              pmapSet [((0, "k"), ⟨0, 1⟩)] (YStruct.item ⟨⟨0, 1⟩, some ⟨0, 0⟩, none,
                some ⟨0, 0⟩, none, 0, some "k", false, ['b']⟩).parentOf key ⟨0, 0⟩) ∧
          (pmapGet [((0, "k"), ⟨0, 1⟩)] (YStruct.item ⟨⟨0, 1⟩, some ⟨0, 0⟩, none, some ⟨0, 0⟩,
              none, 0, some "k", false, ['b']⟩).parentOf key ≠ some ⟨0, 1⟩ →
            (tryToMergeWithLeft [YStruct.item ⟨⟨0, 0⟩, none, none, none, some ⟨0, 1⟩, 0,
                some "k", false, ['a']⟩,
              YStruct.item ⟨⟨0, 1⟩, some ⟨0, 0⟩, none, some ⟨0, 0⟩, none, 0, some "k", false,
                ['b']⟩] 1 [((0, "k"), ⟨0, 1⟩)]).2 = [((0, "k"), ⟨0, 1⟩)])) ∧
        ((YStruct.item ⟨⟨0, 1⟩, some ⟨0, 0⟩, none, some ⟨0, 0⟩, none, 0, some "k", false,
            ['b']⟩).parentSub = none →
          (tryToMergeWithLeft [YStruct.item ⟨⟨0, 0⟩, none, none, none, some ⟨0, 1⟩, 0,
              some "k", false, ['a']⟩,
            YStruct.item ⟨⟨0, 1⟩, some ⟨0, 0⟩, none, some ⟨0, 0⟩, none, 0, some "k", false,
              ['b']⟩] 1 [((0, "k"), ⟨0, 1⟩)]).2 = [((0, "k"), ⟨0, 1⟩)]))) :=
  tryToMergeWithLeft_spec
    [YStruct.item ⟨⟨0, 0⟩, none, none, none, some ⟨0, 1⟩, 0, some "k", false, ['a']⟩,
      YStruct.item ⟨⟨0, 1⟩, some ⟨0, 0⟩, none, some ⟨0, 0⟩, none, 0, some "k", false, ['b']⟩]
    1 [((0, "k"), ⟨0, 1⟩)]
    (YStruct.item ⟨⟨0, 0⟩, none, none, none, some ⟨0, 1⟩, 0, some "k", false, ['a']⟩)
    (YStruct.item ⟨⟨0, 1⟩, some ⟨0, 0⟩, none, some ⟨0, 0⟩, none, 0, some "k", false, ['b']⟩)
    (by decide) (by decide) (by decide) (by decide)

/-- C8 (counterexample): a transaction with two observers, the first of
which itself calls `transact`.  The nested transaction is only queued, so
`doc._transaction` is still set when the second observer is invoked: the
recorded states are `[false, true]`, refuting "no observer callback is ever
invoked while the document's active transaction is set". -/
theorem transact_observer_claim_cex :
    cleanupEvents [[true, false]] = [false, true] ∧
    true ∈ cleanupEvents [[true, false]] := by
  decide

/-- C8 (amended): `doc._transaction` is null at the moment the observer
phase of each processed transaction begins (the first observer of every
batch always sees a null transaction), and if no observer itself opens a
transaction then every observer call — shallow and deep — sees
`doc._transaction = null`; an observer that opens a transaction leaves it
set for the remaining observer calls of the same batch. -/
theorem transact_observer_spec (q : List TxnObs) :
    ((∀ t ∈ q, ∀ o ∈ t, o = false) → ∀ e ∈ cleanupEvents q, e = false) ∧
    (∀ t ∈ q, (runTxnObs t false).1.head? ≠ some true) := by
  have hrun : ∀ (os : TxnObs) (active : Bool), (∀ o ∈ os, o = false) →
      ∀ e ∈ (runTxnObs os active).1, e = active := by
    intro os
    induction os with
    | nil => intro active _ e he; simp [runTxnObs] at he
    | cons o os ih =>
      intro active hall e he
      have ho : o = false := hall o (List.mem_cons_self _ _)
      rw [runTxnObs] at he
      simp only [List.mem_cons] at he
      rcases he with rfl | he
      · rfl
      · have := ih (active || o) (fun x hx => hall x (List.mem_cons_of_mem _ hx)) e he
        rw [ho] at this
        simpa using this
  constructor
  · intro hq e he
    rw [cleanupEvents, List.mem_flatMap] at he
    obtain ⟨t, ht, he⟩ := he
    exact hrun t false (hq t ht) e he
  · intro t _
    cases t with
    | nil => simp [runTxnObs]
    | cons o os => simp [runTxnObs]

/-- C8 (witness): two transactions with passive observers; every recorded
observer call sees a null transaction. -/
theorem transact_observer_spec_witness :
    (∀ e ∈ cleanupEvents [[false, false], [false]], e = false) ∧
    (∀ t ∈ [[false, false], [false]], (runTxnObs t false).1.head? ≠ some true) :=
  ⟨(transact_observer_spec [[false, false], [false]]).1 (by decide),
    (transact_observer_spec [[false, false], [false]]).2⟩

theorem markDeleted_start (s : YStruct) : (markDeleted s).start = s.start := by
  cases s <;> rfl

theorem markDeleted_length (s : YStruct) : (markDeleted s).length = s.length := by
  cases s <;> rfl

theorem markDeleted_stop (s : YStruct) : (markDeleted s).stop = s.stop := by
  rw [YStruct.stop, YStruct.stop, markDeleted_start, markDeleted_length]

theorem markDeleted_deleted (s : YStruct) : (markDeleted s).deleted = true := by
  cases s <;> rfl

theorem unitDeleted_low {c : Nat} {l : List YStruct} (h : contigFrom c l) :
    ∀ u, u < c → unitDeleted l u = none := by
  induction l generalizing c with
  | nil => intro u _; rfl
  | cons s rest ih =>
    intro u hu
    obtain ⟨hs, hrest⟩ := h
    rw [unitDeleted, if_neg]
    · exact ih hrest u (by have := s.start_le_stop; omega)
    · intro hcov
      omega

theorem unitDeleted_high {c : Nat} {l : List YStruct} (h : contigFrom c l) :
    ∀ u, stopFrom c l ≤ u → unitDeleted l u = none := by
  induction l generalizing c with
  | nil => intro u _; rfl
  | cons s rest ih =>
    intro u hu
    have hstop : s.stop ≤ stopFrom c (s :: rest) :=
      contigFrom_mem_stop h s (List.mem_cons_self _ _)
    rw [unitDeleted, if_neg]
    · exact ih h.2 u hu
    · intro hcov
      omega

theorem unitDeleted_isSome {c : Nat} {l : List YStruct} (h : contigFrom c l) :
    ∀ u, c ≤ u → u < stopFrom c l → ∃ b, unitDeleted l u = some b := by
  induction l generalizing c with
  | nil => intro u h1 h2; simp only [stopFrom] at h2; omega
  | cons s rest ih =>
    intro u h1 h2
    obtain ⟨hs, hrest⟩ := h
    by_cases hcov : s.start ≤ u ∧ u < s.stop
    · exact ⟨s.deleted, by rw [unitDeleted, if_pos hcov]⟩
    · have h3 : s.stop ≤ u := by omega
      obtain ⟨b, hb⟩ := ih hrest u h3 h2
      exact ⟨b, by rw [unitDeleted, if_neg hcov]; exact hb⟩

theorem unitDeleted_of_mem {c : Nat} {l : List YStruct} (h : contigFrom c l)
    {x : YStruct} (hx : x ∈ l) {u : Nat} (h1 : x.start ≤ u) (h2 : u < x.stop) :
    unitDeleted l u = some x.deleted := by
  induction l generalizing c with
  | nil => cases hx
  | cons s rest ih =>
    rcases List.mem_cons.mp hx with rfl | hx
    · rw [unitDeleted, if_pos ⟨h1, h2⟩]
    · have h3 : s.stop ≤ x.start := contigFrom_rest_start h x hx
      rw [unitDeleted, if_neg]
      · exact ih h.2 hx
      · intro hcov
        omega

theorem unitDeleted_append (l₁ l₂ : List YStruct) (u : Nat) :
    unitDeleted (l₁ ++ l₂) u =
      match unitDeleted l₁ u with
      | some b => some b
      | none => unitDeleted l₂ u := by
  induction l₁ with
  | nil => rfl
  | cons s rest ih =>
    by_cases hcov : s.start ≤ u ∧ u < s.stop
    · rw [List.cons_append, unitDeleted, if_pos hcov, unitDeleted, if_pos hcov]
    · rw [List.cons_append, unitDeleted, if_neg hcov, unitDeleted, if_neg hcov]
      exact ih

theorem stopFrom_append (c : Nat) (l₁ l₂ : List YStruct) :
    stopFrom c (l₁ ++ l₂) = stopFrom (stopFrom c l₁) l₂ := by
  induction l₁ generalizing c with
  | nil => rfl
  | cons s rest ih => exact ih s.stop

theorem contigFrom_append {c : Nat} {l₁ l₂ : List YStruct} :
    contigFrom c (l₁ ++ l₂) ↔ contigFrom c l₁ ∧ contigFrom (stopFrom c l₁) l₂ := by
  induction l₁ generalizing c with
  | nil => simp [contigFrom, stopFrom]
  | cons s rest ih =>
    rw [List.cons_append]
    show (s.start = c ∧ contigFrom s.stop (rest ++ l₂)) ↔ _
    rw [ih]
    show _ ↔ (s.start = c ∧ contigFrom s.stop rest) ∧ contigFrom (stopFrom s.stop rest) l₂
    tauto

theorem delLoop_contig {e : Nat} : ∀ {c : Nat} {l : List YStruct}, contigFrom c l →
    contigFrom c (delLoop e l) := by
  intro c l
  induction l generalizing c with
  | nil => intro h; exact h
  | cons s rest ih =>
    intro h
    rw [delLoop]
    by_cases h1 : s.start < e
    · rw [if_pos h1]
      by_cases h2 : s.deleted = true
      · rw [if_pos h2]
        exact ⟨h.1, ih h.2⟩
      · rw [if_neg h2]
        by_cases h3 : e < s.stop
        · rw [if_pos h3]
          have hst : s.stop = s.start + s.length := rfl
          have hd : e - s.start ≤ s.length := by omega
          refine ⟨?_, ?_, ?_⟩
          · rw [markDeleted_start, splitStruct_fst_start]
            exact h.1
          · rw [markDeleted_stop, splitStruct_fst_stop s _ hd, splitStruct_snd_start]
          · show contigFrom (splitStruct s (e - s.start)).2.stop rest
            rw [splitStruct_snd_stop s _ hd]
            exact h.2
        · rw [if_neg h3]
          refine ⟨?_, ?_⟩
          · rw [markDeleted_start]
            exact h.1
          · show contigFrom (markDeleted s).stop (delLoop e rest)
            rw [markDeleted_stop]
            exact ih h.2
    · rw [if_neg h1]
      exact h

theorem delLoop_stopFrom (e : Nat) : ∀ (c : Nat) (l : List YStruct),
    stopFrom c (delLoop e l) = stopFrom c l := by
  intro c l
  induction l generalizing c with
  | nil => rfl
  | cons s rest ih =>
    rw [delLoop]
    by_cases h1 : s.start < e
    · rw [if_pos h1]
      by_cases h2 : s.deleted = true
      · rw [if_pos h2]
        exact ih s.stop
      · rw [if_neg h2]
        by_cases h3 : e < s.stop
        · rw [if_pos h3]
          have hst : s.stop = s.start + s.length := rfl
          have hd : e - s.start ≤ s.length := by omega
          show stopFrom (splitStruct s (e - s.start)).2.stop rest = stopFrom s.stop rest
          rw [splitStruct_snd_stop s _ hd]
        · rw [if_neg h3]
          show stopFrom (markDeleted s).stop (delLoop e rest) = stopFrom s.stop rest
          rw [markDeleted_stop]
          exact ih s.stop
    · rw [if_neg h1]

theorem delLoop_pos {e : Nat} : ∀ {l : List YStruct}, (∀ x ∈ l, 0 < x.length) →
    ∀ x ∈ delLoop e l, 0 < x.length := by
  intro l
  induction l with
  | nil => intro _ x hx; cases hx
  | cons s rest ih =>
    intro hp x hx
    rw [delLoop] at hx
    by_cases h1 : s.start < e
    · rw [if_pos h1] at hx
      by_cases h2 : s.deleted = true
      · rw [if_pos h2] at hx
        rcases List.mem_cons.mp hx with rfl | hx
        · exact hp x (List.mem_cons_self _ _)
        · exact ih (fun y hy => hp y (List.mem_cons_of_mem _ hy)) x hx
      · rw [if_neg h2] at hx
        by_cases h3 : e < s.stop
        · rw [if_pos h3] at hx
          have hst : s.stop = s.start + s.length := rfl
          have hd : e - s.start ≤ s.length := by omega
          rcases List.mem_cons.mp hx with rfl | hx
          · rw [markDeleted_length, splitStruct_fst_length s _ hd]
            omega
          · rcases List.mem_cons.mp hx with rfl | hx
            · rw [splitStruct_snd_length]
              omega
            · exact hp x (List.mem_cons_of_mem _ hx)
        · rw [if_neg h3] at hx
          rcases List.mem_cons.mp hx with rfl | hx
          · rw [markDeleted_length]
            exact hp s (List.mem_cons_self _ _)
          · exact ih (fun y hy => hp y (List.mem_cons_of_mem _ hy)) x hx
    · rw [if_neg h1] at hx
      exact hp x hx

theorem delLoop_del {e : Nat} : ∀ {c : Nat} {l : List YStruct}, contigFrom c l →
    ∀ x ∈ delLoop e l, x.start < e → x.deleted = true := by
  intro c l
  induction l generalizing c with
  | nil => intro _ x hx; cases hx
  | cons s rest ih =>
    intro h x hx hxe
    rw [delLoop] at hx
    by_cases h1 : s.start < e
    · rw [if_pos h1] at hx
      by_cases h2 : s.deleted = true
      · rw [if_pos h2] at hx
        rcases List.mem_cons.mp hx with rfl | hx
        · exact h2
        · exact ih h.2 x hx hxe
      · rw [if_neg h2] at hx
        by_cases h3 : e < s.stop
        · rw [if_pos h3] at hx
          have hst : s.stop = s.start + s.length := rfl
          have hd : e - s.start ≤ s.length := by omega
          rcases List.mem_cons.mp hx with rfl | hx
          · exact markDeleted_deleted _
          · rcases List.mem_cons.mp hx with rfl | hx
            · rw [splitStruct_snd_start] at hxe
              omega
            · have := contigFrom_rest_start h x hx
              omega
        · rw [if_neg h3] at hx
          rcases List.mem_cons.mp hx with rfl | hx
          · exact markDeleted_deleted _
          · exact ih h.2 x hx hxe
    · rw [if_neg h1] at hx
      rcases List.mem_cons.mp hx with rfl | hx
      · omega
      · have h4 := contigFrom_rest_start h x hx
        have h5 := s.start_le_stop
        omega

theorem delLoop_id {e : Nat} : ∀ {l : List YStruct},
    (∀ x ∈ l, x.start < e → x.deleted = true) → delLoop e l = l := by
  intro l
  induction l with
  | nil => intro _; rfl
  | cons s rest ih =>
    intro h
    rw [delLoop]
    by_cases h1 : s.start < e
    · rw [if_pos h1, if_pos (h s (List.mem_cons_self _ _) h1),
        ih (fun x hx hxe => h x (List.mem_cons_of_mem _ hx) hxe)]
    · rw [if_neg h1]

theorem delLoop_refine {e : Nat} : ∀ {l : List YStruct}, ∀ x ∈ delLoop e l,
    x.deleted = false →
    ∃ y ∈ l, y.deleted = false ∧ y.start ≤ x.start ∧ x.stop ≤ y.stop := by
  intro l
  induction l with
  | nil => intro x hx; cases hx
  | cons s rest ih =>
    intro x hx hxd
    rw [delLoop] at hx
    by_cases h1 : s.start < e
    · rw [if_pos h1] at hx
      by_cases h2 : s.deleted = true
      · rw [if_pos h2] at hx
        rcases List.mem_cons.mp hx with rfl | hx
        · rw [h2] at hxd
          cases hxd
        · obtain ⟨y, hy, hyd, hy1, hy2⟩ := ih x hx hxd
          exact ⟨y, List.mem_cons_of_mem _ hy, hyd, hy1, hy2⟩
      · rw [if_neg h2] at hx
        have hsdel : s.deleted = false := by
          cases hsd : s.deleted
          · rfl
          · exact absurd hsd h2
        by_cases h3 : e < s.stop
        · rw [if_pos h3] at hx
          have hst : s.stop = s.start + s.length := rfl
          have hd : e - s.start ≤ s.length := by omega
          rcases List.mem_cons.mp hx with rfl | hx
          · rw [markDeleted_deleted] at hxd
            cases hxd
          · rcases List.mem_cons.mp hx with rfl | hx
            · refine ⟨s, List.mem_cons_self _ _, hsdel, ?_, ?_⟩
              · rw [splitStruct_snd_start]
                omega
              · rw [splitStruct_snd_stop s _ hd]
            · exact ⟨x, List.mem_cons_of_mem _ hx, hxd, Nat.le_refl _, Nat.le_refl _⟩
        · rw [if_neg h3] at hx
          rcases List.mem_cons.mp hx with rfl | hx
          · rw [markDeleted_deleted] at hxd
            cases hxd
          · obtain ⟨y, hy, hyd, hy1, hy2⟩ := ih x hx hxd
            exact ⟨y, List.mem_cons_of_mem _ hy, hyd, hy1, hy2⟩
    · rw [if_neg h1] at hx
      exact ⟨x, hx, hxd, Nat.le_refl _, Nat.le_refl _⟩

/-- How the delete loop acts on each clock unit: units below `endCl` have
their covering struct's deleted flag forced to `true`, units at or beyond
`endCl` are untouched; coverage itself never changes. -/
theorem delLoop_unit {e : Nat} : ∀ {c : Nat} {l : List YStruct}, contigFrom c l → ∀ u,
    (u < e → unitDeleted (delLoop e l) u = (unitDeleted l u).map (fun _ => true)) ∧
    (e ≤ u → unitDeleted (delLoop e l) u = unitDeleted l u) := by
  intro c l
  induction l generalizing c with
  | nil => intro _ u; exact ⟨fun _ => rfl, fun _ => rfl⟩
  | cons s rest ih =>
    intro h u
    rw [delLoop]
    by_cases h1 : s.start < e
    · rw [if_pos h1]
      by_cases h2 : s.deleted = true
      · rw [if_pos h2]
        constructor
        · intro hu
          by_cases hcov : s.start ≤ u ∧ u < s.stop
          · rw [unitDeleted, if_pos hcov, unitDeleted, if_pos hcov, h2]
            rfl
          · rw [unitDeleted, if_neg hcov, unitDeleted, if_neg hcov]
            exact (ih h.2 u).1 hu
        · intro hu
          by_cases hcov : s.start ≤ u ∧ u < s.stop
          · rw [unitDeleted, if_pos hcov, unitDeleted, if_pos hcov]
          · rw [unitDeleted, if_neg hcov, unitDeleted, if_neg hcov]
            exact (ih h.2 u).2 hu
      · rw [if_neg h2]
        have hsdel : s.deleted = false := by
          cases hsd : s.deleted
          · rfl
          · exact absurd hsd h2
        by_cases h3 : e < s.stop
        · rw [if_pos h3]
          have hst : s.stop = s.start + s.length := rfl
          have hd : e - s.start ≤ s.length := by omega
          have hm1s : (markDeleted (splitStruct s (e - s.start)).1).start = s.start := by
            rw [markDeleted_start, splitStruct_fst_start]
          have hm1e : (markDeleted (splitStruct s (e - s.start)).1).stop = e := by
            rw [markDeleted_stop, splitStruct_fst_stop s _ hd]
            omega
          have hs2s : (splitStruct s (e - s.start)).2.start = e := by
            rw [splitStruct_snd_start]
            omega
          have hs2e : (splitStruct s (e - s.start)).2.stop = s.stop :=
            splitStruct_snd_stop s _ hd
          have hs2d : (splitStruct s (e - s.start)).2.deleted = s.deleted :=
            splitStruct_snd_deleted s _
          constructor
          · intro hu
            by_cases hcov : s.start ≤ u ∧ u < s.stop
            · rw [unitDeleted, if_pos ⟨by rw [hm1s]; omega, by rw [hm1e]; omega⟩,
                markDeleted_deleted, unitDeleted, if_pos hcov, hsdel]
              rfl
            · have hlow : u < s.start := by omega
              rw [unitDeleted, if_neg (by intro hc; rw [hm1s, hm1e] at hc; omega),
                unitDeleted, if_neg (by intro hc; rw [hs2s, hs2e] at hc; omega),
                unitDeleted, if_neg hcov]
              have hnone := unitDeleted_low h.2 u (by omega)
              rw [hnone]
              rfl
          · intro hu
            by_cases hcov : s.start ≤ u ∧ u < s.stop
            · rw [unitDeleted, if_neg (by intro hc; rw [hm1s, hm1e] at hc; omega),
                unitDeleted, if_pos ⟨by rw [hs2s]; omega, by rw [hs2e]; omega⟩, hs2d,
                unitDeleted, if_pos hcov]
            · rw [unitDeleted, if_neg (by intro hc; rw [hm1s, hm1e] at hc; omega),
                unitDeleted, if_neg (by intro hc; rw [hs2s, hs2e] at hc; omega),
                unitDeleted, if_neg hcov]
        · rw [if_neg h3]
          have hmds : (markDeleted s).start = s.start := markDeleted_start s
          have hmde : (markDeleted s).stop = s.stop := markDeleted_stop s
          constructor
          · intro hu
            by_cases hcov : s.start ≤ u ∧ u < s.stop
            · rw [unitDeleted, if_pos ⟨by rw [hmds]; omega, by rw [hmde]; omega⟩,
                markDeleted_deleted, unitDeleted, if_pos hcov, hsdel]
              rfl
            · rw [unitDeleted, if_neg (by intro hc; rw [hmds, hmde] at hc; omega),
                unitDeleted, if_neg hcov]
              exact (ih h.2 u).1 hu
          · intro hu
            have hncov : ¬(s.start ≤ u ∧ u < s.stop) := by omega
            rw [unitDeleted, if_neg (by intro hc; rw [hmds, hmde] at hc; omega),
              unitDeleted, if_neg hncov]
            exact (ih h.2 u).2 hu
    · rw [if_neg h1]
      constructor
      · intro hu
        have hncov : ¬(s.start ≤ u ∧ u < s.stop) := by omega
        rw [unitDeleted, if_neg hncov]
        have := s.start_le_stop
        have hnone := unitDeleted_low h.2 u (by omega)
        rw [hnone]
        rfl
      · intro _
        rfl

theorem drop_eq_cons_of_get {α : Type} {l : List α} {n : Nat} {a : α}
    (h : l.get? n = some a) : l.drop n = a :: l.drop (n + 1) := by
  have hn : n < l.length := by
    by_contra hge
    push_neg at hge
    rw [← List.get?_eq_none] at hge
    rw [hge] at h
    cases h
  rw [List.drop_eq_getElem_cons hn]
  have h2 : l[n] = a := by
    have h3 := List.get?_eq_get hn
    rw [h3] at h
    cases h
    simp [List.get_eq_getElem]
  rw [h2]

/-- Everything one `(clock, len)` application does to a contiguous,
positive-length struct array: it succeeds, preserves contiguity, the state
and the covered units, deletes every unit in `[clock, clock+len)`, leaves
every other unit's flag unchanged, leaves no live struct starting in
`[clock, clock+len)` and no live struct straddling `clock`, and every live
struct of the output is a sub-interval of a live struct of the input. -/
theorem applyRange_spec (structs : List YStruct) (clock len : Nat)
    (hc : contigFrom 0 structs)
    (hpos : ∀ x ∈ structs, 0 < x.length)
    (hclock : clock < stopFrom 0 structs) :
    ∃ out, applyRange clock len structs = some out ∧
      contigFrom 0 out ∧
      stopFrom 0 out = stopFrom 0 structs ∧
      (∀ x ∈ out, 0 < x.length) ∧
      (∀ u, clock ≤ u → u < clock + len →
        unitDeleted out u = (unitDeleted structs u).map (fun _ => true)) ∧
      (∀ u, u < clock ∨ clock + len ≤ u → unitDeleted out u = unitDeleted structs u) ∧
      (∀ x ∈ out, clock ≤ x.start → x.start < clock + len → x.deleted = true) ∧
      (∀ x ∈ out, x.deleted = false → ¬(x.start < clock ∧ clock < x.stop)) ∧
      (∀ x ∈ out, x.deleted = false →
        ∃ y ∈ structs, y.deleted = false ∧ y.start ≤ x.start ∧ x.stop ≤ y.stop) := by
  obtain ⟨index, s, hfind, hgs, hs1, hs2, _⟩ :=
    (findIndexSS_spec structs 0 clock hc).1 ⟨Nat.zero_le _, hclock⟩
  have hdrop : structs.drop index = s :: structs.drop (index + 1) := drop_eq_cons_of_get hgs
  have hsplit : structs = structs.take index ++ s :: structs.drop (index + 1) := by
    conv_lhs => rw [← List.take_append_drop index structs]
    rw [hdrop]
  have hcA : contigFrom 0 (structs.take index) ∧
      contigFrom (stopFrom 0 (structs.take index)) (s :: structs.drop (index + 1)) :=
    contigFrom_append.mp (by rw [← hsplit]; exact hc)
  obtain ⟨hcpre, hcsuf⟩ := hcA
  have hcs : s.start = stopFrom 0 (structs.take index) := hcsuf.1
  have hcrest : contigFrom s.stop (structs.drop (index + 1)) := hcsuf.2
  have hqpre : ∀ x ∈ structs.take index, x.stop ≤ s.start := by
    intro x hx
    rw [hcs]
    exact contigFrom_mem_stop hcpre x hx
  have hpremem : ∀ x ∈ structs.take index, x ∈ structs :=
    fun x hx => List.take_subset _ _ hx
  have hrestmem : ∀ x ∈ structs.drop (index + 1), x ∈ structs :=
    fun x hx => List.drop_subset _ _ hx
  have hsmem : s ∈ structs := List.get?_mem hgs
  have hreststart : ∀ x ∈ structs.drop (index + 1), s.stop ≤ x.start :=
    fun x hx => contigFrom_mem_start hcrest x hx
  have hstopsuf : stopFrom 0 structs = stopFrom s.stop (structs.drop (index + 1)) := by
    conv_lhs => rw [hsplit]
    rw [stopFrom_append]
    rw [← hcs]
    rfl
  have hunit_structs : ∀ u, unitDeleted structs u =
      match unitDeleted (structs.take index) u with
      | some b => some b
      | none => unitDeleted (s :: structs.drop (index + 1)) u := by
    intro u
    conv_lhs => rw [hsplit]
    exact unitDeleted_append _ _ u
  have hpre_none : ∀ u, s.start ≤ u → unitDeleted (structs.take index) u = none := by
    intro u hu
    exact unitDeleted_high hcpre u (by rw [← hcs]; exact hu)
  have happ : applyRange clock len structs =
      (if s.deleted = false ∧ s.start < clock then
        some (structs.take index ++ (splitStruct s (clock - s.start)).1 ::
          delLoop (clock + len)
            ((splitStruct s (clock - s.start)).2 :: structs.drop (index + 1)))
      else
        some (structs.take index ++
          delLoop (clock + len) (s :: structs.drop (index + 1)))) := by
    rw [applyRange, hfind]
    dsimp only
    rw [hdrop]
  have hst : s.stop = s.start + s.length := rfl
  by_cases hcase : s.deleted = false ∧ s.start < clock
  · -- the containing struct is live and begins before the range: split first
    rw [happ, if_pos hcase]
    have hd : clock - s.start ≤ s.length := by omega
    have hl1s : (splitStruct s (clock - s.start)).1.start = s.start :=
      splitStruct_fst_start s _
    have hl1e : (splitStruct s (clock - s.start)).1.stop = clock := by
      rw [splitStruct_fst_stop s _ hd]
      omega
    have hl1d : (splitStruct s (clock - s.start)).1.deleted = s.deleted :=
      splitStruct_fst_deleted s _
    have hl1len : (splitStruct s (clock - s.start)).1.length = clock - s.start :=
      splitStruct_fst_length s _ hd
    have hr1s : (splitStruct s (clock - s.start)).2.start = clock := by
      rw [splitStruct_snd_start]
      omega
    have hr1e : (splitStruct s (clock - s.start)).2.stop = s.stop :=
      splitStruct_snd_stop s _ hd
    have hr1d : (splitStruct s (clock - s.start)).2.deleted = s.deleted :=
      splitStruct_snd_deleted s _
    have hr1len : (splitStruct s (clock - s.start)).2.length = s.length - (clock - s.start) :=
      splitStruct_snd_length s _
    have hcr1 : contigFrom clock
        ((splitStruct s (clock - s.start)).2 :: structs.drop (index + 1)) := by
      refine ⟨hr1s, ?_⟩
      show contigFrom (splitStruct s (clock - s.start)).2.stop (structs.drop (index + 1))
      rw [hr1e]
      exact hcrest
    have hsuffu : ∀ u, clock ≤ u →
        unitDeleted ((splitStruct s (clock - s.start)).2 :: structs.drop (index + 1)) u =
        unitDeleted (s :: structs.drop (index + 1)) u := by
      intro u hu
      by_cases hus : u < s.stop
      · rw [unitDeleted, if_pos ⟨by rw [hr1s]; omega, by rw [hr1e]; omega⟩, hr1d,
          unitDeleted, if_pos ⟨by omega, hus⟩]
      · rw [unitDeleted, if_neg (by intro hco; rw [hr1s, hr1e] at hco; omega),
          unitDeleted, if_neg (by intro hco; omega)]
    refine ⟨_, rfl, ?_, ?_, ?_, ?_, ?_, ?_, ?_, ?_⟩
    · -- contiguity
      rw [contigFrom_append]
      refine ⟨hcpre, ?_, ?_⟩
      · rw [hl1s, hcs]
      · show contigFrom (splitStruct s (clock - s.start)).1.stop
          (delLoop (clock + len)
            ((splitStruct s (clock - s.start)).2 :: structs.drop (index + 1)))
        rw [hl1e]
        exact delLoop_contig hcr1
    · -- state preserved
      rw [stopFrom_append, ← hcs]
      show stopFrom (splitStruct s (clock - s.start)).1.stop (delLoop (clock + len) _) = _
      rw [delLoop_stopFrom, hl1e]
      show stopFrom (splitStruct s (clock - s.start)).2.stop (structs.drop (index + 1)) = _
      rw [hr1e, ← hstopsuf]
    · -- positive lengths
      intro x hx
      rcases List.mem_append.mp hx with hx | hx
      · exact hpos x (hpremem x hx)
      · rcases List.mem_cons.mp hx with rfl | hx
        · rw [hl1len]
          omega
        · refine delLoop_pos ?_ x hx
          intro y hy
          rcases List.mem_cons.mp hy with rfl | hy
          · rw [hr1len]
            omega
          · exact hpos y (hrestmem y hy)
    · -- units inside the range are deleted
      intro u hu1 hu2
      rw [hunit_structs u, hpre_none u (by omega), unitDeleted_append, hpre_none u (by omega)]
      dsimp only
      rw [unitDeleted, if_neg (by intro hco; rw [hl1s, hl1e] at hco; omega)]
      rw [(delLoop_unit hcr1 u).1 hu2, hsuffu u hu1]
    · -- units outside the range keep their flag
      intro u hu
      rw [hunit_structs u, unitDeleted_append]
      rcases hu with hu | hu
      · by_cases hup : u < s.start
        · rcases Nat.lt_or_ge u (stopFrom 0 (structs.take index)) with hlo | hhi
          · obtain ⟨b, hb⟩ := unitDeleted_isSome hcpre u (Nat.zero_le _) hlo
            rw [hb]
          · have hn : unitDeleted (structs.take index) u = none :=
              unitDeleted_high hcpre u hhi
            rw [hn]
            dsimp only
            rw [unitDeleted, if_neg (by intro hco; rw [hl1s, hl1e] at hco; omega),
              unitDeleted, if_neg (by intro hco; omega)]
            rw [unitDeleted_low hcrest u (by omega)]
            rw [unitDeleted_low (delLoop_contig hcr1) u (by omega)]
        · -- s.start ≤ u < clock: the untouched left part covers u
          push_neg at hup
          rw [hpre_none u hup]
          dsimp only
          rw [unitDeleted, if_pos ⟨by rw [hl1s]; omega, by rw [hl1e]; omega⟩, hl1d,
            unitDeleted, if_pos ⟨by omega, by omega⟩]
      · -- clock + len ≤ u
        rw [hpre_none u (by omega)]
        dsimp only
        rw [unitDeleted, if_neg (by intro hco; rw [hl1s, hl1e] at hco; omega)]
        rw [(delLoop_unit hcr1 u).2 hu, hsuffu u (by omega)]
    · -- no live struct starts inside the range
      intro x hx hx1 hx2
      rcases List.mem_append.mp hx with hx | hx
      · have h5 := hqpre x hx
        have h6 := hpos x (hpremem x hx)
        have h7 : x.stop = x.start + x.length := rfl
        omega
      · rcases List.mem_cons.mp hx with rfl | hx
        · rw [hl1s] at hx1
          omega
        · exact delLoop_del hcr1 x hx hx2
    · -- no live struct straddles clock
      intro x hx hxd
      rcases List.mem_append.mp hx with hx | hx
      · have h5 := hqpre x hx
        intro hco
        omega
      · rcases List.mem_cons.mp hx with rfl | hx
        · rw [hl1s, hl1e]
          intro hco
          omega
        · obtain ⟨y, hy, hyd, hy1, hy2⟩ := delLoop_refine x hx hxd
          rcases List.mem_cons.mp hy with rfl | hy
          · rw [hr1s] at hy1
            intro hco
            omega
          · have := hreststart y hy
            intro hco
            omega
    · -- live structs refine live input structs
      intro x hx hxd
      rcases List.mem_append.mp hx with hx | hx
      · exact ⟨x, hpremem x hx, hxd, Nat.le_refl _, Nat.le_refl _⟩
      · rcases List.mem_cons.mp hx with rfl | hx
        · refine ⟨s, hsmem, by rw [← hl1d]; exact hxd, by rw [hl1s], by rw [hl1e]; omega⟩
        · obtain ⟨y, hy, hyd, hy1, hy2⟩ := delLoop_refine x hx hxd
          rcases List.mem_cons.mp hy with rfl | hy
          · refine ⟨s, hsmem, by rw [← hr1d]; exact hyd, ?_, ?_⟩
            · rw [hr1s] at hy1
              omega
            · rw [hr1e] at hy2
              exact hy2
          · exact ⟨y, hrestmem y hy, hyd, hy1, hy2⟩
  · -- no preliminary split: the containing struct is deleted or starts at clock
    rw [happ, if_neg hcase]
    have hcsuf2 : contigFrom s.start (s :: structs.drop (index + 1)) := ⟨rfl, hcrest⟩
    refine ⟨_, rfl, ?_, ?_, ?_, ?_, ?_, ?_, ?_, ?_⟩
    · rw [contigFrom_append]
      exact ⟨hcpre, by rw [← hcs]; exact delLoop_contig hcsuf2⟩
    · rw [stopFrom_append, ← hcs, delLoop_stopFrom]
      show stopFrom s.stop (structs.drop (index + 1)) = _
      rw [← hstopsuf]
    · intro x hx
      rcases List.mem_append.mp hx with hx | hx
      · exact hpos x (hpremem x hx)
      · refine delLoop_pos ?_ x hx
        intro y hy
        rcases List.mem_cons.mp hy with rfl | hy
        · exact hpos y hsmem
        · exact hpos y (hrestmem y hy)
    · intro u hu1 hu2
      rw [hunit_structs u, hpre_none u (by omega), unitDeleted_append, hpre_none u (by omega)]
      dsimp only
      exact (delLoop_unit hcsuf2 u).1 hu2
    · intro u hu
      rw [hunit_structs u, unitDeleted_append]
      rcases hu with hu | hu
      · by_cases hup : u < s.start
        · rcases Nat.lt_or_ge u (stopFrom 0 (structs.take index)) with hlo | hhi
          · obtain ⟨b, hb⟩ := unitDeleted_isSome hcpre u (Nat.zero_le _) hlo
            rw [hb]
          · have hn : unitDeleted (structs.take index) u = none :=
              unitDeleted_high hcpre u hhi
            rw [hn]
            dsimp only
            rw [(delLoop_unit hcsuf2 u).1 (by omega)]
            rw [unitDeleted, if_neg (by intro hco; omega)]
            rw [unitDeleted_low hcrest u (by omega)]
            rfl
        · -- s.start ≤ u < clock: s must be deleted here
          push_neg at hup
          have hsdel : s.deleted = true := by
            rcases Bool.eq_false_or_eq_true s.deleted with hb | hb
            · exact hb
            · exact absurd ⟨hb, by omega⟩ hcase
          rw [hpre_none u hup]
          dsimp only
          rw [(delLoop_unit hcsuf2 u).1 (by omega)]
          rw [unitDeleted, if_pos ⟨hup, (by omega : u < s.stop)⟩, hsdel]
          rfl
      · rw [hpre_none u (by omega)]
        dsimp only
        exact (delLoop_unit hcsuf2 u).2 hu
    · intro x hx hx1 hx2
      rcases List.mem_append.mp hx with hx | hx
      · have h5 := hqpre x hx
        have h6 := hpos x (hpremem x hx)
        have h7 : x.stop = x.start + x.length := rfl
        omega
      · exact delLoop_del hcsuf2 x hx hx2
    · intro x hx hxd
      rcases List.mem_append.mp hx with hx | hx
      · have h5 := hqpre x hx
        intro hco
        omega
      · obtain ⟨y, hy, hyd, hy1, hy2⟩ := delLoop_refine x hx hxd
        rcases List.mem_cons.mp hy with rfl | hy
        · have : clock ≤ y.start := by
            rcases Bool.eq_false_or_eq_true y.deleted with hb | hb
            · rw [hb] at hyd
              cases hyd
            · have h8 : ¬ y.start < clock := fun hlt => hcase ⟨hb, hlt⟩
              omega
          intro hco
          omega
        · have := hreststart y hy
          intro hco
          omega
    · intro x hx hxd
      rcases List.mem_append.mp hx with hx | hx
      · exact ⟨x, hpremem x hx, hxd, Nat.le_refl _, Nat.le_refl _⟩
      · obtain ⟨y, hy, hyd, hy1, hy2⟩ := delLoop_refine x hx hxd
        rcases List.mem_cons.mp hy with rfl | hy
        · exact ⟨y, hsmem, hyd, hy1, hy2⟩
        · exact ⟨y, hrestmem y hy, hyd, hy1, hy2⟩

/-- Re-applying a range whose units are already deleted, with no live
struct straddling its start, changes nothing: the containing struct is not
split (it is deleted or starts exactly at `clock`) and the loop only skips
deleted structs. -/
theorem applyRange_id (structs : List YStruct) (clock len : Nat)
    (hc : contigFrom 0 structs)
    (_hpos : ∀ x ∈ structs, 0 < x.length)
    (hclock : clock < stopFrom 0 structs)
    (hP : ∀ x ∈ structs, clock ≤ x.start → x.start < clock + len → x.deleted = true)
    (hQ : ∀ x ∈ structs, x.deleted = false → ¬(x.start < clock ∧ clock < x.stop)) :
    applyRange clock len structs = some structs := by
  obtain ⟨index, s, hfind, hgs, hs1, hs2, _⟩ :=
    (findIndexSS_spec structs 0 clock hc).1 ⟨Nat.zero_le _, hclock⟩
  have hdrop : structs.drop index = s :: structs.drop (index + 1) := drop_eq_cons_of_get hgs
  have hsmem : s ∈ structs := List.get?_mem hgs
  have hcA : contigFrom 0 (structs.take index) ∧
      contigFrom (stopFrom 0 (structs.take index)) (s :: structs.drop (index + 1)) :=
    contigFrom_append.mp (by
      rw [← (by conv_lhs => rw [← List.take_append_drop index structs, hdrop] :
        structs = structs.take index ++ s :: structs.drop (index + 1))]
      exact hc)
  have hcrest : contigFrom s.stop (structs.drop (index + 1)) := hcA.2.2
  have hreststart : ∀ x ∈ structs.drop (index + 1), s.stop ≤ x.start :=
    fun x hx => contigFrom_mem_start hcrest x hx
  have hcase : ¬(s.deleted = false ∧ s.start < clock) := by
    intro hco
    exact hQ s hsmem hco.1 ⟨hco.2, hs2⟩
  rw [applyRange, hfind]
  dsimp only
  rw [hdrop]
  dsimp only
  rw [if_neg hcase]
  have hid : delLoop (clock + len) (s :: structs.drop (index + 1)) =
      s :: structs.drop (index + 1) := by
    apply delLoop_id
    intro x hx hxe
    rcases List.mem_cons.mp hx with rfl | hx
    · rcases Bool.eq_false_or_eq_true x.deleted with hb | hb
      · exact hb
      · have h8 : ¬ x.start < clock := fun hlt => hcase ⟨hb, hlt⟩
        exact hP x hsmem (by omega) hxe
    · have h9 := hreststart x hx
      exact hP x (List.drop_subset _ _ hx) (by omega) hxe
  rw [hid, ← hdrop, List.take_append_drop]

/-- C4: one encoded `(client, clock, len)` range processed by
`readDeleteSet` against a store whose state for that client is `state`:
if `clock ≥ state` the whole range is parked and no struct is modified; if
`clock < state` every unit in `[clock, min(state, clock+len))` ends up in a
deleted struct (live structs are split at the range boundaries, so deletion
affects exactly the covered units: units outside the range keep their flag
and coverage is unchanged), and exactly the still-unknown suffix
`[state, clock+len)`, when nonempty, is parked for
`pendingDeleteReaders`. -/
theorem readDeleteSet_range_spec (structs : List YStruct) (d : DeleteItem) (state : Nat)
    (hc : contigFrom 0 structs)
    (hpos : ∀ x ∈ structs, 0 < x.length)
    (hstate : state = stopFrom 0 structs) :
    (state ≤ d.clock → readOneRange state structs d = some (structs, [d])) ∧
    (d.clock < state →
      ∃ out, readOneRange state structs d =
          some (out,
            if state < d.clock + d.len then [⟨state, d.clock + d.len - state⟩] else []) ∧
        contigFrom 0 out ∧ stopFrom 0 out = state ∧ (∀ x ∈ out, 0 < x.length) ∧
        (∀ u, d.clock ≤ u → u < min state (d.clock + d.len) →
          unitDeleted out u = some true) ∧
        (∀ u, d.clock ≤ u → u < d.clock + d.len →
          unitDeleted out u = (unitDeleted structs u).map (fun _ => true)) ∧
        (∀ u, u < d.clock ∨ d.clock + d.len ≤ u →
          unitDeleted out u = unitDeleted structs u) ∧
        (∀ x ∈ out, d.clock ≤ x.start → x.start < d.clock + d.len →
          x.deleted = true)) := by
  constructor
  · intro h
    rw [readOneRange, if_neg (by omega)]
  · intro h
    obtain ⟨out, happ, hcout, hsout, hposout, hin, hout, hP, hQ, href⟩ :=
      applyRange_spec structs d.clock d.len hc hpos (by omega)
    refine ⟨out, ?_, hcout, by omega, hposout, ?_, hin, hout, hP⟩
    · rw [readOneRange, if_pos h, happ]
    · intro u hu1 hu2
      obtain ⟨b, hb⟩ := unitDeleted_isSome hc u (Nat.zero_le _) (by omega)
      rw [hin u hu1 (by omega), hb]
      rfl

/-- C4 (witness): a store knowing clocks `[0,3)` of client 0 as one live
three-character item, receiving the delete range `[1,6)`: clocks `[1,3)`
are deleted (the item is split at clock 1), clock 0 stays live, and the
suffix `[3,6)` is parked. -/
theorem readDeleteSet_range_spec_witness :
    (3 ≤ (⟨1, 5⟩ : DeleteItem).clock →
      readOneRange 3 [YStruct.item ⟨⟨0, 0⟩, none, none, none, none, 0, none, false,
        ['a', 'b', 'c']⟩] ⟨1, 5⟩ =
        some ([YStruct.item ⟨⟨0, 0⟩, none, none, none, none, 0, none, false,
          ['a', 'b', 'c']⟩], [⟨1, 5⟩])) ∧
    ((⟨1, 5⟩ : DeleteItem).clock < 3 →
      ∃ out, readOneRange 3 [YStruct.item ⟨⟨0, 0⟩, none, none, none, none, 0, none, false,
          ['a', 'b', 'c']⟩] ⟨1, 5⟩ =
          some (out, if 3 < (⟨1, 5⟩ : DeleteItem).clock + (⟨1, 5⟩ : DeleteItem).len then
            [⟨3, (⟨1, 5⟩ : DeleteItem).clock + (⟨1, 5⟩ : DeleteItem).len - 3⟩] else []) ∧
        contigFrom 0 out ∧ stopFrom 0 out = 3 ∧ (∀ x ∈ out, 0 < x.length) ∧
        (∀ u, (⟨1, 5⟩ : DeleteItem).clock ≤ u →
          u < min 3 ((⟨1, 5⟩ : DeleteItem).clock + (⟨1, 5⟩ : DeleteItem).len) →
          unitDeleted out u = some true) ∧
        (∀ u, (⟨1, 5⟩ : DeleteItem).clock ≤ u →
          u < (⟨1, 5⟩ : DeleteItem).clock + (⟨1, 5⟩ : DeleteItem).len →
          unitDeleted out u =
            (unitDeleted [YStruct.item ⟨⟨0, 0⟩, none, none, none, none, 0, none, false,
              ['a', 'b', 'c']⟩] u).map (fun _ => true)) ∧
        (∀ u, u < (⟨1, 5⟩ : DeleteItem).clock ∨
            (⟨1, 5⟩ : DeleteItem).clock + (⟨1, 5⟩ : DeleteItem).len ≤ u →
          unitDeleted out u = unitDeleted [YStruct.item ⟨⟨0, 0⟩, none, none, none, none, 0,
            none, false, ['a', 'b', 'c']⟩] u) ∧
        (∀ x ∈ out, (⟨1, 5⟩ : DeleteItem).clock ≤ x.start →
          x.start < (⟨1, 5⟩ : DeleteItem).clock + (⟨1, 5⟩ : DeleteItem).len →
          x.deleted = true)) :=
  readDeleteSet_range_spec [YStruct.item ⟨⟨0, 0⟩, none, none, none, none, 0, none, false,
    ['a', 'b', 'c']⟩] ⟨1, 5⟩ 3 (by decide) (by decide) (by decide)

/-- One client's delete-range pass: the array invariant is preserved, the
parked ranges depend only on the ranges and the state, deletion of units is
monotone, live structs refine live input structs, and every applied range
is done (its units deleted, no live straddler at its start) in the final
array. -/
theorem applyRanges_post (state : Nat) (ranges : List DeleteItem) :
    ∀ structs out parked, applyRanges state ranges structs = some (out, parked) →
      WFStructs state structs →
      WFStructs state out ∧ parked = parkedOf state ranges ∧
      (∀ u, unitDeleted structs u ≠ some false → unitDeleted out u ≠ some false) ∧
      (∀ x ∈ out, x.deleted = false →
        ∃ y ∈ structs, y.deleted = false ∧ y.start ≤ x.start ∧ x.stop ≤ y.stop) ∧
      (∀ d ∈ ranges, d.clock < state → RangeDone d out) := by
  induction ranges with
  | nil =>
    intro structs out parked h hwf
    rw [applyRanges] at h
    cases h
    exact ⟨hwf, rfl, fun u hu => hu,
      fun x hx hxd => ⟨x, hx, hxd, Nat.le_refl _, Nat.le_refl _⟩,
      fun d hd => absurd hd (by simp)⟩
  | cons d rest ih =>
    intro structs out parked h hwf
    rw [applyRanges] at h
    by_cases hd : d.clock < state
    · obtain ⟨out1, happ1, hcout1, hsout1, hposout1, hin1, hout1, hP1, hQ1, href1⟩ :=
        applyRange_spec structs d.clock d.len hwf.1 hwf.2.2 (by
          have := hwf.2.1
          omega)
      rw [readOneRange, if_pos hd, happ1] at h
      dsimp only at h
      rcases h2 : applyRanges state rest out1 with _ | p2
      · rw [h2] at h
        cases h
      · rw [h2] at h
        obtain ⟨out2, parked2⟩ := p2
        dsimp only at h
        cases h
        have hwf1 : WFStructs state out1 :=
          ⟨hcout1, by rw [hsout1]; exact hwf.2.1, hposout1⟩
        obtain ⟨hwf2, hparked2, hmono2, href2, hdone2⟩ := ih out1 out parked2 h2 hwf1
        have hstep_mono : ∀ u, unitDeleted structs u ≠ some false →
            unitDeleted out1 u ≠ some false := by
          intro u hu
          by_cases hur : d.clock ≤ u ∧ u < d.clock + d.len
          · rw [hin1 u hur.1 hur.2]
            rcases unitDeleted structs u with _ | b
            · intro hx
              cases hx
            · intro hx
              simp at hx
          · rw [hout1 u (by omega)]
            exact hu
        refine ⟨hwf2, ?_, ?_, ?_, ?_⟩
        · rw [hparked2, parkedOf, if_pos hd]
        · intro u hu
          exact hmono2 u (hstep_mono u hu)
        · intro x hx hxd
          obtain ⟨y, hy, hyd, hy1, hy2⟩ := href2 x hx hxd
          obtain ⟨z, hz, hzd, hz1, hz2⟩ := href1 y hy hyd
          exact ⟨z, hz, hzd, by omega, by omega⟩
        · intro d2 hd2 hd2s
          rcases List.mem_cons.mp hd2 with rfl | hd2
          · constructor
            · intro u hu1 hu2
              refine hmono2 u ?_
              rw [hin1 u hu1 hu2]
              rcases unitDeleted structs u with _ | b
              · intro hx
                cases hx
              · intro hx
                simp at hx
            · intro x hx hxd
              obtain ⟨y, hy, hyd, hy1, hy2⟩ := href2 x hx hxd
              have h5 := hQ1 y hy hyd
              intro hco
              exact h5 ⟨by omega, by omega⟩
          · exact hdone2 d2 hd2 hd2s
    · rw [readOneRange, if_neg hd] at h
      dsimp only at h
      rcases h2 : applyRanges state rest structs with _ | p2
      · rw [h2] at h
        cases h
      · rw [h2] at h
        obtain ⟨out2, parked2⟩ := p2
        dsimp only at h
        cases h
        obtain ⟨hwf2, hparked2, hmono2, href2, hdone2⟩ := ih structs out parked2 h2 hwf
        refine ⟨hwf2, ?_, hmono2, href2, ?_⟩
        · rw [hparked2, parkedOf, if_neg hd]
        · intro d2 hd2 hd2s
          rcases List.mem_cons.mp hd2 with rfl | hd2
          · omega
          · exact hdone2 d2 hd2 hd2s

/-- Re-running a client's delete-range pass on an array in which every
applied range is already done changes nothing and parks the same ranges. -/
theorem applyRanges_id (state : Nat) (ranges : List DeleteItem) :
    ∀ structs, WFStructs state structs →
      (∀ d ∈ ranges, d.clock < state → RangeDone d structs) →
      applyRanges state ranges structs = some (structs, parkedOf state ranges) := by
  induction ranges with
  | nil => intro structs _ _; rfl
  | cons d rest ih =>
    intro structs hwf hdone
    rw [applyRanges]
    by_cases hd : d.clock < state
    · have hdoned := hdone d (List.mem_cons_self _ _) hd
      have hP : ∀ x ∈ structs, d.clock ≤ x.start → x.start < d.clock + d.len →
          x.deleted = true := by
        intro x hx hx1 hx2
        have hxlen := hwf.2.2 x hx
        have h7 : x.stop = x.start + x.length := rfl
        have hcov := unitDeleted_of_mem hwf.1 hx (Nat.le_refl x.start) (by omega)
        have h5 := hdoned.1 x.start hx1 hx2
        rw [hcov] at h5
        rcases Bool.eq_false_or_eq_true x.deleted with hb | hb
        · exact hb
        · rw [hb] at h5
          exact absurd rfl h5
      have happ := applyRange_id structs d.clock d.len hwf.1 hwf.2.2
        (by have := hwf.2.1; omega) hP hdoned.2
      rw [readOneRange, if_pos hd, happ]
      dsimp only
      rw [ih structs hwf (fun d2 hd2 => hdone d2 (List.mem_cons_of_mem _ hd2))]
      dsimp only
      rw [parkedOf, if_pos hd]
    · rw [readOneRange, if_neg hd]
      dsimp only
      rw [ih structs hwf (fun d2 hd2 => hdone d2 (List.mem_cons_of_mem _ hd2))]
      dsimp only
      rw [parkedOf, if_neg hd]

theorem trimBlock_post {state : Nat} : ∀ {c : Nat} {block : List YStruct},
    contigFrom c block → c ≤ state →
    contigFrom state (trimBlock state block) ∧
    stopFrom state (trimBlock state block) = max state (stopFrom c block) ∧
    ((∀ x ∈ block, 0 < x.length) → ∀ x ∈ trimBlock state block, 0 < x.length) := by
  intro c block
  induction block generalizing c with
  | nil =>
    intro _ hcs
    refine ⟨trivial, ?_, fun _ x hx => by cases hx⟩
    show state = max state c
    omega
  | cons s rest ih =>
    intro h hcs
    have hsc : s.start = c := h.1
    have hrest : contigFrom s.stop rest := h.2
    have hst : s.stop = s.start + s.length := rfl
    have hrstop : s.stop ≤ stopFrom s.stop rest := contigFrom_le_stopFrom hrest
    rw [trimBlock]
    by_cases h1 : s.stop ≤ state
    · rw [if_pos h1]
      obtain ⟨a1, a2, a3⟩ := ih hrest h1
      exact ⟨a1, a2, fun hp => a3 (fun x hx => hp x (List.mem_cons_of_mem _ hx))⟩
    · rw [if_neg h1]
      by_cases h2 : s.start < state
      · rw [if_pos h2]
        have hd : state - s.start ≤ s.length := by omega
        have hr1s : (splitStruct s (state - s.start)).2.start = state := by
          rw [splitStruct_snd_start]
          omega
        have hr1e : (splitStruct s (state - s.start)).2.stop = s.stop :=
          splitStruct_snd_stop s _ hd
        refine ⟨⟨hr1s, ?_⟩, ?_, ?_⟩
        · show contigFrom (splitStruct s (state - s.start)).2.stop rest
          rw [hr1e]
          exact hrest
        · show stopFrom (splitStruct s (state - s.start)).2.stop rest = _
          rw [hr1e]
          show _ = max state (stopFrom s.stop rest)
          omega
        · intro hp x hx
          rcases List.mem_cons.mp hx with rfl | hx
          · rw [splitStruct_snd_length]
            omega
          · exact hp x (List.mem_cons_of_mem _ hx)
      · rw [if_neg h2]
        have hseq : s.start = state := by omega
        refine ⟨⟨hseq, hrest⟩, ?_, fun hp x hx => hp x hx⟩
        show stopFrom s.stop rest = max state (stopFrom s.stop rest)
        omega

theorem trimBlock_nil {state : Nat} : ∀ {block : List YStruct},
    (∀ x ∈ block, x.stop ≤ state) → trimBlock state block = [] := by
  intro block
  induction block with
  | nil => intro _; rfl
  | cons s rest ih =>
    intro h
    rw [trimBlock, if_pos (h s (List.mem_cons_self _ _))]
    exact ih (fun x hx => h x (List.mem_cons_of_mem _ hx))

/-- Integration preserves the array invariant; the new state is the larger
of the old state and the block's end when the block applies, the old state
otherwise. -/
theorem integrateBlock_post {startClock : Nat} {block structs : List YStruct}
    (hc : contigFrom 0 structs) (hpos : ∀ x ∈ structs, 0 < x.length)
    (hbc : contigFrom startClock block) (hbpos : ∀ x ∈ block, 0 < x.length) :
    contigFrom 0 (integrateBlock (stopFrom 0 structs) startClock block structs) ∧
    (∀ x ∈ integrateBlock (stopFrom 0 structs) startClock block structs, 0 < x.length) ∧
    stopFrom 0 (integrateBlock (stopFrom 0 structs) startClock block structs) =
      (if startClock ≤ stopFrom 0 structs
        then max (stopFrom 0 structs) (stopFrom startClock block)
        else stopFrom 0 structs) := by
  rw [integrateBlock]
  by_cases h1 : startClock ≤ stopFrom 0 structs
  · rw [if_pos h1, if_pos h1]
    obtain ⟨htc, hts, htp⟩ := trimBlock_post hbc h1
    refine ⟨?_, ?_, ?_⟩
    · rw [contigFrom_append]
      exact ⟨hc, htc⟩
    · intro x hx
      rcases List.mem_append.mp hx with hx | hx
      · exact hpos x hx
      · exact htp hbpos x hx
    · rw [stopFrom_append, hts]
  · rw [if_neg h1, if_neg h1]
    exact ⟨hc, hpos, rfl⟩

/-- C3 (per client): applying the same client section twice yields the same
struct array as applying it once, and the array invariant is preserved.
The second integration appends nothing because the whole block is below the
new state; the second delete pass changes nothing because every applied
range's units are already deleted and live structs were split at the range
starts. -/
theorem applyClientUpdate_idem (u : ClientUpdate) (structs out : List YStruct)
    (hc : contigFrom 0 structs) (hpos : ∀ x ∈ structs, 0 < x.length)
    (hbc : contigFrom u.startClock u.block) (hbpos : ∀ x ∈ u.block, 0 < x.length)
    (h1 : applyClientUpdate u structs = some out) :
    applyClientUpdate u out = some out ∧ contigFrom 0 out ∧ ∀ x ∈ out, 0 < x.length := by
  obtain ⟨hic, hip, his⟩ := integrateBlock_post hc hpos hbc hbpos
  rw [applyClientUpdate] at h1
  rcases h2 : applyRanges
      (stopFrom 0 (integrateBlock (stopFrom 0 structs) u.startClock u.block structs))
      u.ranges (integrateBlock (stopFrom 0 structs) u.startClock u.block structs)
    with _ | p2
  · rw [h2] at h1
    cases h1
  · rw [h2] at h1
    obtain ⟨out2, parked2⟩ := p2
    dsimp only at h1
    cases h1
    have hwf1 : WFStructs
        (stopFrom 0 (integrateBlock (stopFrom 0 structs) u.startClock u.block structs))
        (integrateBlock (stopFrom 0 structs) u.startClock u.block structs) :=
      ⟨hic, rfl, hip⟩
    obtain ⟨hwf2, hparked2, hmono2, href2, hdone2⟩ :=
      applyRanges_post _ u.ranges _ out parked2 h2 hwf1
    obtain ⟨hcout, hsout, hposout⟩ := hwf2
    refine ⟨?_, hcout, hposout⟩
    have hblockstop : ∀ x ∈ u.block, x.stop ≤ stopFrom u.startClock u.block :=
      contigFrom_mem_stop hbc
    have hio : integrateBlock (stopFrom 0 out) u.startClock u.block out = out := by
      rw [integrateBlock]
      by_cases h3 : u.startClock ≤ stopFrom 0 structs
      · rw [if_pos (by rw [hsout, his, if_pos h3]; omega)]
        rw [trimBlock_nil, List.append_nil]
        intro x hx
        have h4 := hblockstop x hx
        have h5 : stopFrom u.startClock u.block ≤ stopFrom 0 out := by
          rw [hsout, his, if_pos h3]
          omega
        omega
      · rw [if_neg (by rw [hsout, his, if_neg h3]; omega)]
    rw [applyClientUpdate, hio, applyRanges_id _ u.ranges out ⟨hcout, rfl, hposout⟩]
    intro d hd hds
    rw [hsout] at hds
    exact hdone2 d hd hds

theorem storeGet_cons_pos (p : Nat × List YStruct) (rest : List (Nat × List YStruct))
    (client : Nat) (h : p.1 = client) :
    storeGet ⟨p :: rest⟩ client = some p.2 := by
  rw [storeGet, List.find?_cons_of_pos]
  · rfl
  · simp [h]

theorem storeGet_cons_neg (p : Nat × List YStruct) (rest : List (Nat × List YStruct))
    (client : Nat) (h : p.1 ≠ client) :
    storeGet ⟨p :: rest⟩ client = storeGet ⟨rest⟩ client := by
  rw [storeGet, List.find?_cons_of_neg]
  · rfl
  · simp [h]

theorem storeSetList_cons_pos (p : Nat × List YStruct) (rest : List (Nat × List YStruct))
    (client : Nat) (v : List YStruct) (h : p.1 = client) :
    storeSetList (p :: rest) client v = (client, v) :: rest := by
  rw [storeSetList, if_pos h]

theorem storeSetList_cons_neg (p : Nat × List YStruct) (rest : List (Nat × List YStruct))
    (client : Nat) (v : List YStruct) (h : p.1 ≠ client) :
    storeSetList (p :: rest) client v = p :: storeSetList rest client v := by
  rw [storeSetList, if_neg h]

theorem storeGet_storeSet_eq (store : StructStore) (client : Nat) (v : List YStruct) :
    storeGet (storeSet store client v) client = some v := by
  obtain ⟨l⟩ := store
  induction l with
  | nil =>
    show storeGet ⟨[(client, v)]⟩ client = some v
    exact storeGet_cons_pos (client, v) [] client rfl
  | cons p rest ih =>
    show storeGet ⟨storeSetList (p :: rest) client v⟩ client = some v
    by_cases hp : p.1 = client
    · rw [storeSetList_cons_pos p rest client v hp]
      exact storeGet_cons_pos (client, v) rest client rfl
    · rw [storeSetList_cons_neg p rest client v hp]
      rw [storeGet_cons_neg p _ client hp]
      exact ih

theorem storeGet_storeSet_ne (store : StructStore) (client other : Nat) (v : List YStruct)
    (h : other ≠ client) :
    storeGet (storeSet store client v) other = storeGet store other := by
  obtain ⟨l⟩ := store
  induction l with
  | nil =>
    show storeGet ⟨[(client, v)]⟩ other = storeGet ⟨[]⟩ other
    rw [storeGet_cons_neg (client, v) [] other (by simp; omega)]
  | cons p rest ih =>
    show storeGet ⟨storeSetList (p :: rest) client v⟩ other = storeGet ⟨p :: rest⟩ other
    by_cases hp : p.1 = client
    · rw [storeSetList_cons_pos p rest client v hp]
      rw [storeGet_cons_neg (client, v) rest other (by simp; omega)]
      rw [storeGet_cons_neg p rest other (by omega)]
    · rw [storeSetList_cons_neg p rest client v hp]
      by_cases hpo : p.1 = other
      · rw [storeGet_cons_pos p _ other hpo, storeGet_cons_pos p rest other hpo]
      · rw [storeGet_cons_neg p _ other hpo, storeGet_cons_neg p rest other hpo]
        exact ih

theorem storeSet_self (store : StructStore) (client : Nat) (v : List YStruct)
    (h : storeGet store client = some v) : storeSet store client v = store := by
  obtain ⟨l⟩ := store
  induction l with
  | nil => cases h
  | cons p rest ih =>
    show (⟨storeSetList (p :: rest) client v⟩ : StructStore) = ⟨p :: rest⟩
    by_cases hp : p.1 = client
    · rw [storeSetList_cons_pos p rest client v hp]
      have hv : p.2 = v := by
        rw [storeGet_cons_pos p rest client hp] at h
        exact Option.some.inj h
      rw [← hv, ← hp]
    · rw [storeSetList_cons_neg p rest client v hp]
      have h2 : storeGet ⟨rest⟩ client = some v := by
        rw [storeGet_cons_neg p rest client hp] at h
        exact h
      have h4 := ih h2
      have h5 : storeSetList rest client v = rest := congrArg StructStore.clients h4
      rw [h5]

theorem mem_storeSetList {l : List (Nat × List YStruct)} {client : Nat}
    {v : List YStruct} : ∀ p ∈ storeSetList l client v, p ∈ l ∨ p = (client, v) := by
  induction l with
  | nil =>
    intro p hp
    rw [storeSetList] at hp
    rcases List.mem_singleton.mp hp with rfl
    exact Or.inr rfl
  | cons q rest ih =>
    intro p hp
    by_cases hq : q.1 = client
    · rw [storeSetList_cons_pos q rest client v hq] at hp
      rcases List.mem_cons.mp hp with rfl | hp
      · exact Or.inr rfl
      · exact Or.inl (List.mem_cons_of_mem _ hp)
    · rw [storeSetList_cons_neg q rest client v hq] at hp
      rcases List.mem_cons.mp hp with rfl | hp
      · exact Or.inl (List.mem_cons_self _ _)
      · rcases ih p hp with hp | hp
        · exact Or.inl (List.mem_cons_of_mem _ hp)
        · exact Or.inr hp

theorem storeWF_storeSet {store : StructStore} {client : Nat} {v : List YStruct}
    (hs : storeWF store) (hc : contigFrom 0 v) (hp : ∀ x ∈ v, 0 < x.length) :
    storeWF (storeSet store client v) := by
  intro p hp2
  rcases mem_storeSetList p hp2 with hp2 | rfl
  · exact hs p hp2
  · exact ⟨hc, hp⟩

theorem storeGet_wf {store : StructStore} {client : Nat} (hs : storeWF store) :
    contigFrom 0 ((storeGet store client).getD []) ∧
    ∀ x ∈ (storeGet store client).getD [], 0 < x.length := by
  rcases hget : storeGet store client with _ | l
  · exact ⟨trivial, fun x hx => by cases hx⟩
  · rw [storeGet] at hget
    rcases hfind : store.clients.find? (fun q => q.1 == client) with _ | q
    · rw [hfind] at hget
      cases hget
    · rw [hfind] at hget
      have hq := List.mem_of_find?_eq_some hfind
      have h2 : q.2 = l := by
        simp only [Option.map] at hget
        exact Option.some.inj hget
      rw [Option.getD_some, ← h2]
      exact hs q hq

theorem applyUpdate_getOther : ∀ (u : UpdateMsg) (store out : StructStore) (client : Nat),
    applyUpdate u store = some out → client ∉ u.map Prod.fst →
    storeGet out client = storeGet store client := by
  intro u
  induction u with
  | nil =>
    intro store out client h _
    cases h
    rfl
  | cons p rest ih =>
    obtain ⟨pc, pcu⟩ := p
    intro store out client h hmem
    rw [List.map_cons, List.mem_cons] at hmem
    push_neg at hmem
    rw [applyUpdate] at h
    rcases h2 : applyClientUpdate pcu ((storeGet store pc).getD []) with _ | v1
    · rw [h2] at h
      cases h
    · rw [h2] at h
      dsimp only at h
      rw [ih (storeSet store pc v1) out client h hmem.2]
      exact storeGet_storeSet_ne store pc client v1 hmem.1

/-- C3: applying the same update message twice to a store yields the same
per-client struct arrays as applying it once.  The second application is
absorbed: every struct block now lies at or below the local state, so
integration appends nothing, and every re-applied delete range only meets
structs that are already deleted, so the delete pass rewrites nothing. -/
theorem applyUpdate_idem : ∀ (u : UpdateMsg) (store out : StructStore),
    updateWF u → storeWF store → applyUpdate u store = some out →
    applyUpdate u out = some out := by
  intro u
  induction u with
  | nil =>
    intro store out _ _ h
    cases h
    rfl
  | cons p rest ih =>
    obtain ⟨client, cu⟩ := p
    intro store out hu hs h
    have hnodup : client ∉ rest.map Prod.fst := by
      have h2 := hu.1
      rw [List.map_cons, List.nodup_cons] at h2
      exact h2.1
    have hcuwf := hu.2 (client, cu) (List.mem_cons_self _ _)
    have hrestwf : updateWF rest := by
      refine ⟨?_, fun q hq => hu.2 q (List.mem_cons_of_mem _ hq)⟩
      have h2 := hu.1
      rw [List.map_cons, List.nodup_cons] at h2
      exact h2.2
    rw [applyUpdate] at h
    rcases h2 : applyClientUpdate cu ((storeGet store client).getD []) with _ | v1
    · rw [h2] at h
      cases h
    · rw [h2] at h
      dsimp only at h
      obtain ⟨hv0c, hv0p⟩ := @storeGet_wf store client hs
      obtain ⟨hidem, hv1c, hv1p⟩ :=
        applyClientUpdate_idem cu ((storeGet store client).getD []) v1
          hv0c hv0p hcuwf.1 hcuwf.2 h2
      have hswf : storeWF (storeSet store client v1) := storeWF_storeSet hs hv1c hv1p
      have hrest_idem := ih (storeSet store client v1) out hrestwf hswf h
      have hget_out : storeGet out client = some v1 := by
        rw [applyUpdate_getOther rest (storeSet store client v1) out client h hnodup]
        exact storeGet_storeSet_eq store client v1
      rw [applyUpdate, hget_out]
      rw [Option.getD_some, hidem]
      dsimp only
      rw [storeSet_self out client v1 hget_out]
      exact hrest_idem

/-- C3 (witness): a store knowing `[0,2)` of client 0 as a live item "ab";
the update appends "c" at clock 2 and deletes `[0,2)`.  Applying it once
deletes "ab" and appends "c"; applying it a second time to the result
changes nothing. -/
theorem applyUpdate_idem_witness :
    updateWF [(0, ⟨2, [YStruct.item ⟨⟨0, 2⟩, some ⟨0, 1⟩, none, some ⟨0, 1⟩, none, 0, none,
      false, ['c']⟩], [⟨0, 2⟩]⟩)] ∧
    storeWF ⟨[(0, [YStruct.item ⟨⟨0, 0⟩, none, none, none, none, 0, none, false,
      ['a', 'b']⟩])]⟩ ∧
    applyUpdate [(0, ⟨2, [YStruct.item ⟨⟨0, 2⟩, some ⟨0, 1⟩, none, some ⟨0, 1⟩, none, 0, none,
        false, ['c']⟩], [⟨0, 2⟩]⟩)]
      ⟨[(0, [YStruct.item ⟨⟨0, 0⟩, none, none, none, none, 0, none, false, ['a', 'b']⟩])]⟩ =
      some ⟨[(0, [YStruct.item ⟨⟨0, 0⟩, none, none, none, none, 0, none, true, ['a', 'b']⟩,
        YStruct.item ⟨⟨0, 2⟩, some ⟨0, 1⟩, none, some ⟨0, 1⟩, none, 0, none, false,
          ['c']⟩])]⟩ ∧
    applyUpdate [(0, ⟨2, [YStruct.item ⟨⟨0, 2⟩, some ⟨0, 1⟩, none, some ⟨0, 1⟩, none, 0, none,
        false, ['c']⟩], [⟨0, 2⟩]⟩)]
      ⟨[(0, [YStruct.item ⟨⟨0, 0⟩, none, none, none, none, 0, none, true, ['a', 'b']⟩,
        YStruct.item ⟨⟨0, 2⟩, some ⟨0, 1⟩, none, some ⟨0, 1⟩, none, 0, none, false,
          ['c']⟩])]⟩ =
      some ⟨[(0, [YStruct.item ⟨⟨0, 0⟩, none, none, none, none, 0, none, true, ['a', 'b']⟩,
        YStruct.item ⟨⟨0, 2⟩, some ⟨0, 1⟩, none, some ⟨0, 1⟩, none, 0, none, false,
          ['c']⟩])]⟩ :=
  ⟨by unfold updateWF; decide, by unfold storeWF; decide, by decide,
    applyUpdate_idem
      [(0, ⟨2, [YStruct.item ⟨⟨0, 2⟩, some ⟨0, 1⟩, none, some ⟨0, 1⟩, none, 0, none,
        false, ['c']⟩], [⟨0, 2⟩]⟩)]
      ⟨[(0, [YStruct.item ⟨⟨0, 0⟩, none, none, none, none, 0, none, false, ['a', 'b']⟩])]⟩
      ⟨[(0, [YStruct.item ⟨⟨0, 0⟩, none, none, none, none, 0, none, true, ['a', 'b']⟩,
        YStruct.item ⟨⟨0, 2⟩, some ⟨0, 1⟩, none, some ⟨0, 1⟩, none, 0, none, false,
          ['c']⟩])]⟩
      (by unfold updateWF; decide) (by unfold storeWF; decide) (by decide)⟩
